import Mathlib

/-!
The one-dimensional cellular automaton of `ElementaryCA/style.js`.

A shallow embedding of the `CellularAutomata` class and of the classifier
functions of `src/ElementaryCA/style.js`, followed by theorems about them.

Modelling conventions.

* JavaScript strings are lists of characters.
* A cell read from an array is a number or `undefined`/`NaN`; both of the
  latter are the value `none` of `Cell`, because the only thing the program
  does with a cell is `p5.str` followed by `parseInt`, and both render to a
  word that starts with a letter.
* A JavaScript number is an IEEE 754 double. The finite doubles are rationals,
  so a number is a value of `ℚ`, and every arithmetic operation of the program
  on coordinates and canvas sizes (`mul64`, `div64`, `sub64`, `add64`) rounds
  its exact result to the nearest double with `toDouble`. Results beyond the largest
  double are outside `toDouble`; the constructor, whose operands are arbitrary,
  checks for them (`finite64`). The percentage of `findPercentage` and the
  threshold of `activeRarity` are written with exact arithmetic; on the values
  the program meets they decide as the doubles do (`findPercentage_doubles`,
  `activeRarity_generator`).
* The function `parseInt(v, 10)` on a number reads the decimal rendering
  `String(v)` of the double, exponent notation included (`parseIntNum`).
* An expression that throws (`this.injection[i].x` on a missing pair) makes
  the enclosing function return `none`.
* The drawing methods and the canvas fields (`p5`, `scale`, `ratio`,
  `woffset`, `hoffset`) take no part in the simulation and are left out.
* The class is embedded twice. `CellularAutomata` has natural numbers for the
  row dimensions `width` and `height` and for `injectionPoints`: it is the
  class on integer arguments. `Sketch.CellularAutomata` has the fields as
  `draw` leaves them: `width` and `height` are the unrounded quotients the
  constructor computes and `injectionPoints` is a number of `[0, 1)`. The two
  agree on whole-number fields (`sketch_generate_toSketch`).
-/

namespace ElementaryCA

/-! ## JavaScript primitives used by the class -/

/-- A cell value: `some n` is the number `n`; `none` is `undefined` or `NaN`. -/
abbrev Cell := Option Nat

/-- An integer-valued JavaScript number: `some k`, or `none` for `NaN`. -/
abbrev IntOrNaN := Option Int

/-- Array element assignment `xs[i] = v` for an index `i ≥ 0`. An index past
the end lengthens the array; the slots in between are holes, read as `hole`. -/
def arraySet {α : Type} (xs : List α) (i : Nat) (v hole : α) : List α :=
  if i < xs.length then xs.set i v
  else xs ++ List.replicate (i - xs.length) hole ++ [v]

/-- Assignment `cells[idx] = v` where `idx` is any number. A negative number or
`NaN` names a property, not an element, and leaves the elements untouched. -/
def assignCell (cells : List Cell) (idx : IntOrNaN) (v : Cell) : List Cell :=
  match idx with
  | some (Int.ofNat n) => arraySet cells n v none
  | _ => cells

/-- Array read `cells[idx]` where `idx` is any number: `undefined` outside the
array. -/
def cellAt (cells : List Cell) (idx : IntOrNaN) : Cell :=
  match idx with
  | some (Int.ofNat n) => cells.getD n none
  | _ => none

/-- The remainder operator `a % m` on integers: truncating (the sign follows the
dividend), and `NaN` for a zero divisor. -/
def jsRem (a m : Int) : IntOrNaN :=
  if m = 0 then none else some (Int.tmod a m)

/-- The digit value of a character in a radix of at most ten. -/
def digitOf (radix : Nat) (c : Char) : Option Nat :=
  if 48 ≤ c.toNat ∧ c.toNat < 48 + radix then some (c.toNat - 48) else none

/-- The longest prefix of a string made of digits of the radix. -/
def leadingDigits (radix : Nat) : List Char → List Nat
  | [] => []
  | c :: cs =>
    match digitOf radix c with
    | some d => d :: leadingDigits radix cs
    | none => []

/-- The function `parseInt(s, radix)` for a radix of at most ten, on a string
without leading blanks or sign (the program parses digit strings and the words
`NaN`/`undefined` only): the value of the longest digit prefix, `NaN` if that
prefix is empty. -/
def parseInt (s : List Char) (radix : Nat) : Option Nat :=
  match leadingDigits radix s with
  | [] => none
  | ds => some (ds.foldl (fun acc d => acc * radix + d) 0)

/-- The power `2 ^ z` for an integer exponent. -/
def pow2 (z : Int) : ℚ :=
  if 0 ≤ z then (2 : ℚ) ^ z.toNat else 1 / (2 : ℚ) ^ (-z).toNat

/-- The power `10 ^ z` for an integer exponent. -/
def pow10 (z : Int) : ℚ :=
  if 0 ≤ z then (10 : ℚ) ^ z.toNat else 1 / (10 : ℚ) ^ (-z).toNat

/-- The number of halvings that bring `n` below 2, within `fuel` steps: the
binary logarithm of `n ≥ 1`, rounded down, when `fuel ≥ n`. -/
def halvings : Nat → Nat → Nat
  | 0, _ => 0
  | fuel + 1, n => if n < 2 then 0 else halvings fuel (n / 2) + 1

/-- The integer `e` with `2 ^ e ≤ q < 2 ^ (e + 1)`, for a positive `q`. -/
def log2Floor (q : ℚ) : Int :=
  let d : Int := (halvings q.num.natAbs q.num.natAbs : Int) - (halvings q.den q.den : Int)
  if q < pow2 d then d - 1 else d

/-- Rounding to the nearest integer, a tie going to the even one. -/
def roundHalfEven (m : ℚ) : Int :=
  let f : Int := ⌊m⌋
  if m - f < 1 / 2 then f
  else if 1 / 2 < m - f then f + 1
  else if f % 2 = 0 then f else f + 1

/-- The IEEE 754 binary64 value nearest to `q`, ties to even: the rounding that
every arithmetic operation on numbers applies to its exact result. A double is
a multiple of `2 ^ (e - 52)` where `2 ^ e ≤ |q| < 2 ^ (e + 1)`, with `e` no less
than `-1022` (below that the doubles are subnormal and equally spaced). A
magnitude of `2 ^ 1024 - 2 ^ 970` or more, which a machine rounds to
`Infinity`, is outside this function (see `finite64`). -/
def toDouble (q : ℚ) : ℚ :=
  if q = 0 then 0
  else
    let e : Int := max (log2Floor |q|) (-1022)
    let quantum : ℚ := pow2 (e - 52)
    let r : ℚ := (roundHalfEven (|q| / quantum) : ℚ) * quantum
    if q < 0 then -r else r

/-- The operator `a * b` on numbers. -/
def mul64 (a b : ℚ) : ℚ :=
  toDouble (a * b)

/-- The operator `a - b` on numbers. -/
def sub64 (a b : ℚ) : ℚ :=
  toDouble (a - b)

/-- The operator `a + b` on numbers. -/
def add64 (a b : ℚ) : ℚ :=
  toDouble (a + b)

/-- The operator `a / b` on numbers, for a divisor other than 0. -/
def div64 (a b : ℚ) : ℚ :=
  toDouble (a / b)

/-- The double an operation with exact result `q` yields, `none` when it is
`Infinity` (the rounded magnitude exceeds the largest double,
`(2 ^ 53 - 1) * 2 ^ 971`). -/
def finite64 (q : ℚ) : Option ℚ :=
  if |toDouble q| ≤ (2 ^ 53 - 1) * 2 ^ 971 then some (toDouble q) else none

/-- The least `j` from the given one on with `1 ≤ v * 10 ^ j`, searched for
`fuel` steps. -/
def firstScale (v : ℚ) : Nat → Nat → Nat
  | 0, j => j
  | fuel + 1, j => if 1 ≤ v * (10 : ℚ) ^ j then j else firstScale v fuel (j + 1)

/-- The decimal exponent `n` of a positive double `v`:
`10 ^ (n - 1) ≤ v < 10 ^ n`. -/
def decExp (v : ℚ) : Int :=
  if 1 ≤ v then ((Nat.toDigits 10 ⌊v⌋₊).length : Int)
  else 1 - (firstScale v 400 1 : Int)

/-- The integers `s` next to `v / 10 ^ (n - k)` for which `s * 10 ^ (n - k)`
rounds to the double `v`, the one closer to `v` first (the even one on a
tie). -/
def roundTrips (v : ℚ) (n : Int) (k : Nat) : List Nat :=
  let scale : ℚ := pow10 (n - k)
  let lo : Nat := ⌊v / scale⌋₊
  let hi : Nat := lo + 1
  let dLo : ℚ := v - lo * scale
  let dHi : ℚ := hi * scale - v
  let ordered : List Nat :=
    if dLo < dHi then [lo, hi]
    else if dHi < dLo then [hi, lo]
    else if lo % 2 = 0 then [lo, hi] else [hi, lo]
  ordered.filter (fun s => decide (toDouble ((s : ℚ) * scale) = v))

/-- The digits of `Number::toString` for a positive double `v` with decimal
exponent `n`: the triple `(s, k, n)` with `k` as small as possible such that
`s` has `k` digits and `s * 10 ^ (n - k)` rounds to `v`, searched from `k`
on. Seventeen digits always suffice. A candidate `s = 10 ^ k` stands for the
digits `1 0 ... 0` with the exponent `n + 1`. -/
def shortestDigits (v : ℚ) (n : Int) : Nat → Nat → Nat × Nat × Int
  | 0, k => (⌊v / pow10 (n - k)⌋₊, k, n)
  | fuel + 1, k =>
    match roundTrips v n k with
    | s :: _ => if s = 10 ^ k then (10 ^ (k - 1), k, n + 1) else (s, k, n)
    | [] => shortestDigits v n fuel (k + 1)

/-- The value `parseInt` reads from the rendering of the digits `(s, k, n)`,
which is: the digits of `s` and `n - k` zeros when `k ≤ n ≤ 21`; the first `n`
digits, a point and the rest when `0 < n ≤ 21`; `0.` and more when
`-6 < n ≤ 0`; and otherwise exponent notation, the first digit followed by a
point or by the letter `e`. The function `parseInt` stops at the first
character that is not a digit. -/
def leadingInteger (d : Nat × Nat × Int) : Nat :=
  let s := d.1
  let k := d.2.1
  let n := d.2.2
  if (k : Int) ≤ n ∧ n ≤ 21 then s * 10 ^ (n - k).toNat
  else if 0 < n ∧ n ≤ 21 then s / 10 ^ ((k : Int) - n).toNat
  else if -6 < n ∧ n ≤ 0 then 0
  else s / 10 ^ (k - 1)

/-- The function `parseInt(v, 10)` on a number: `v` is converted to its string
`String(v)`, the shortest decimal rendering that reads back as the same double,
and the leading integer of that string is returned as a number (with the sign
of `v`). For a magnitude from `1e-6` up to `1e21` this is the integer part of
`v`; below `1e-6` and from `1e21` on the string is in exponent notation and the
result is its first digit: `parseInt(1.5e-7, 10)` is 1. A rational that is not
a double is rounded to one first. -/
def parseIntNum (v : ℚ) : Int :=
  let d := toDouble v
  if d = 0 then 0
  else if 0 < d then
    ⌊toDouble (leadingInteger (shortestDigits d (decExp d) 17 1) : ℚ)⌋
  else -⌊toDouble (leadingInteger (shortestDigits (-d) (decExp (-d)) 17 1) : ℚ)⌋

/-- The function `p5.str(c)` on a cell: decimal digits of a number, the word
`NaN` otherwise. -/
def str (c : Cell) : List Char :=
  match c with
  | some n => Nat.toDigits 10 n
  | none => ['N', 'a', 'N']

/-! ## The class `CellularAutomata` -/

/-- One element of `injection`: an object with numeric fields `x` and `y`. -/
structure Pair where
  /-- Field `x`: drives the trigger generation. -/
  x : ℚ
  /-- Field `y`: drives the target column. -/
  y : ℚ
  deriving DecidableEq

/-- The simulation fields of a `CellularAutomata` object. -/
structure CellularAutomata where
  /-- Field `this.rules`: the rule string (`null` before `setRule` is the empty string). -/
  rules : List Char
  /-- Field `this.cells`: the working row. -/
  cells : List Cell
  /-- Field `this.generation`. -/
  generation : Nat
  /-- Field `this.width`: cells per row. -/
  width : Nat
  /-- Field `this.height`: rows per run. -/
  height : Nat
  /-- Field `this.injection`. -/
  injection : List Pair
  /-- Field `this.injectionPoints`. -/
  injectionPoints : Nat
  /-- Field `this.injectionCounter`. -/
  injectionCounter : Nat
  /-- Field `this.wholeSystem`: the recorded rows. -/
  wholeSystem : List (List Cell)

namespace CellularAutomata

/-- The state left by the constructor, for row dimensions `width` and `height`. -/
def new (width height : Nat) : CellularAutomata :=
  { rules := [], cells := [], generation := 0, width := width, height := height,
    injection := [], injectionPoints := 0, injectionCounter := 0, wholeSystem := [] }

/-- Method `parseRule`: `rule.toString(2)` padded on the left with the tail of
`'00000000'` that starts at the length of the binary string. -/
def parseRule (rule : Nat) : List Char :=
  let binary := Nat.toDigits 2 rule
  (List.replicate 8 '0').drop binary.length ++ binary

/-- Method `setRule`. -/
def setRule (s : CellularAutomata) (rule : Nat) : CellularAutomata :=
  { s with rules := parseRule rule }

/-- Method `applyBlockInjection`. -/
def applyBlockInjection (s : CellularAutomata) (injection : List Pair)
    (injectionPoints : Nat) : CellularAutomata :=
  { s with injection := injection, injectionPoints := injectionPoints }

/-- Method `start`: zero `width` cells of the working row and of a fresh recorded
row, set the centre cell of both, count the generation. -/
def start (s : CellularAutomata) : CellularAutomata :=
  let cells := (List.range s.width).foldl (fun cs i => arraySet cs i (some 0) none) s.cells
  let row := (List.range s.width).foldl (fun r i => arraySet r i (some 0) none) []
  let center := cells.length / 2
  { s with
    cells := arraySet cells center (some 1) none
    wholeSystem := arraySet s.wholeSystem s.generation (arraySet row center (some 1) none) []
    generation := s.generation + 1 }

/-- Method `init`. -/
def init (s : CellularAutomata) (rule : Nat) (injection : List Pair)
    (injectionPoints : Nat) : CellularAutomata :=
  start (applyBlockInjection (setRule s rule) injection injectionPoints)

/-- Method `getInjectionPoint`: `none` when `injection[i]` is missing (the
property read throws), else `parseInt(injection[i].x * 255, 10) % height`. -/
def getInjectionPoint (s : CellularAutomata) (i : Nat) : Option IntOrNaN :=
  match s.injection.get? i with
  | none => none
  | some p => some (jsRem (parseIntNum (mul64 p.x 255)) s.height)

/-- Method `injectSeed`: `none` when `injection[injectionCounter]` is missing,
else the cell `parseInt(y * 255, 10) % width` is set to 1 and the counter
advances. -/
def injectSeed (s : CellularAutomata) : Option CellularAutomata :=
  match s.injection.get? s.injectionCounter with
  | none => none
  | some p =>
    let idx := jsRem (parseIntNum (mul64 p.y 255)) s.width
    some { s with
      cells := assignCell s.cells idx (some 1)
      injectionCounter := s.injectionCounter + 1 }

/-- One iteration of the loop of `checkInjection`, for index `i`. -/
def checkInjectionAt (s : CellularAutomata) (i : Nat) : Option CellularAutomata :=
  match getInjectionPoint s i with
  | none => none
  | some point => if point = some (s.generation : Int) then injectSeed s else some s

/-- Method `checkInjection`: the loop over `i = 0 .. injectionPoints - 1`. -/
def checkInjection (s : CellularAutomata) : Option CellularAutomata :=
  (List.range s.injectionPoints).foldlM checkInjectionAt s

/-- Method `modulo`: `((n % m) + m) % m` with the truncating remainder. -/
def modulo (n m : Int) : IntOrNaN :=
  match jsRem n m with
  | none => none
  | some r => jsRem (r + m) m

/-- Method `executeRules`: the three cells are rendered and concatenated, read
as a base-2 number `n`, and the character of the rule string at `7 - n` is
read as a decimal number. -/
def executeRules (rules : List Char) (a b c : Cell) : Cell :=
  match parseInt (str a ++ str b ++ str c) 2 with
  | none => none
  | some n =>
    if n ≤ 7 then
      match rules.get? (7 - n) with
      | some ch => parseInt [ch] 10
      | none => none
    else none

/-- The row `next` computed by the first loop of `generate` from the working
row. -/
def nextRow (rules : List Char) (cells : List Cell) : List Cell :=
  let dim : Nat := cells.length
  (List.range dim).map fun (i : Nat) =>
    executeRules rules
      (cellAt cells (modulo ((i : Int) - 1) dim))
      (cellAt cells (some (i : Int)))
      (cellAt cells (modulo ((i : Int) + 1) dim))

/-- Method `generate`: injections, then the next row, which replaces the
working row and is stored at `wholeSystem[generation]`. -/
def generate (s : CellularAutomata) : Option CellularAutomata :=
  match checkInjection s with
  | none => none
  | some t =>
    let next := nextRow t.rules t.cells
    some { t with
      cells := next
      wholeSystem := arraySet t.wholeSystem t.generation next []
      generation := t.generation + 1 }

/-- Method `isComplete`. -/
def isComplete (s : CellularAutomata) : Bool :=
  decide (s.generation ≥ s.height)

/-- How a bounded run of a loop ends. -/
inductive Run where
  /-- The loop ended in this state. -/
  | done (s : CellularAutomata)
  /-- A step threw. -/
  | threw
  /-- The step budget ran out before the loop ended. -/
  | outOfFuel

/-- Method `generateAll`: `while (!isComplete()) generate()`, run for at most
`fuel` iterations. -/
def generateAll : Nat → CellularAutomata → Run
  | 0, s => if isComplete s then Run.done s else Run.outOfFuel
  | fuel + 1, s =>
    if isComplete s then Run.done s
    else
      match generate s with
      | none => Run.threw
      | some t => generateAll fuel t

/-- The state after `n` calls of `generate`, `none` if one of them threw. -/
def generateTimes : Nat → CellularAutomata → Option CellularAutomata
  | 0, s => some s
  | n + 1, s =>
    match generate s with
    | none => none
    | some t => generateTimes n t

end CellularAutomata

/-! ## The classifier -/

/-- List `c1` of `findClass` (class I, reported as `Emptied`). -/
def c1 : List Nat :=
  [0, 8, 32, 40, 64, 72, 96, 104, 128, 136, 160, 168, 192, 200, 224, 232]

/-- List `c2` of `findClass` (class II, reported as `Periodic`). -/
def c2 : List Nat :=
  [1, 2, 3, 4, 5, 6, 7, 9, 10, 11, 12, 13, 14, 15, 16, 17, 19, 20, 21, 23, 24, 25, 27, 29,
   31, 33, 34, 35, 36, 37, 38, 39, 41, 42, 43, 44, 46, 47, 48, 49, 51, 52, 53, 55, 56, 59,
   61, 63, 65, 66, 67, 68, 69, 70, 71, 74, 76, 78, 79, 80, 81, 83, 84, 85, 87, 88, 92, 93,
   95, 97, 98, 100, 103, 106, 108, 111, 112, 113, 115, 116, 117, 119, 120, 123, 125, 127,
   130, 132, 134, 138, 139, 140, 142, 143, 144, 148, 151, 152, 155, 159, 162, 164, 166,
   170, 171, 172, 173, 174, 175, 176, 180, 183, 184, 185, 187, 189, 191, 194, 196, 201,
   202, 203, 204, 205, 207, 208, 209, 211, 212, 213, 215, 216, 217, 219, 221, 223, 226,
   227, 228, 229, 231, 233, 234, 235, 236, 237, 239, 240, 241, 243, 244, 245, 247, 248,
   249, 251, 253, 255]

/-- List `c3` of `findClass` (class III, reported as `Structured`). -/
def c3 : List Nat :=
  [18, 22, 26, 28, 50, 54, 57, 58, 60, 62, 73, 77, 82, 90, 91, 94, 99, 102, 105, 109, 110,
   114, 118, 122, 124, 126, 129, 131, 133, 137, 141, 145, 146, 147, 150, 153, 154, 156,
   157, 158, 161, 163, 165, 167, 177, 178, 179, 181, 182, 186, 188, 190, 193, 195, 197,
   198, 199, 206, 210, 214, 218, 220, 222, 230, 238, 242, 246, 250, 252, 254]

/-- List `c4` of `findClass` (class IV, reported as `Chaotic`). -/
def c4 : List Nat :=
  [30, 45, 75, 86, 89, 101, 107, 121, 135, 149, 169, 225]

/-- Function `findPercentage`: `Math.round((v.length / 255) * 100)`, where
`Math.round x` is the floor of `x + 1/2`. -/
def findPercentage (v : List Nat) : Int :=
  ⌊((v.length : ℚ) / 255) * 100 + 1 / 2⌋

/-- Function `findClass`: the name of the first list that includes the rule,
with the percentage of that list; `none` (the function falls off its end and
returns `undefined`) when no list includes it. -/
def findClass (rule : Nat) : Option (String × Int) :=
  if c1.contains rule then some ("Emptied", findPercentage c1)
  else if c2.contains rule then some ("Periodic", findPercentage c2)
  else if c3.contains rule then some ("Structured", findPercentage c3)
  else if c4.contains rule then some ("Chaotic", findPercentage c4)
  else none

/-! ## The attributes computed by `draw` -/

/-- The value stored in `ca_percent` by `draw`: `100 - classData[1]`, reported
as the attribute `Scarcity reward`. -/
def scarcityReward (classData : String × Int) : Int :=
  100 - classData.2

/-- The flag `activeRarity` of `draw`: `rarityProb >= 0.98`. -/
def activeRarity (rarityProb : ℚ) : Bool :=
  decide (rarityProb ≥ 98 / 100)

/-- The string `symmetry` of `draw`. -/
def symmetry (rarityProb : ℚ) : String :=
  if activeRarity rarityProb = true then "Mirrored" else "Normal"

/-- Function `findExtraRarity` (its unused first argument `p5` is left out). -/
def findExtraRarity (caClass : String) (mirrored : Bool) : Nat :=
  if caClass = "Periodic" ∧ mirrored = true then 25
  else if caClass = "Structured" ∧ mirrored = true then 50
  else if caClass = "Emptied" ∧ mirrored = true then 75
  else if caClass = "Chaotic" ∧ mirrored = true then 100
  else 0

/-! ## The values `draw` selects from the transactions -/

/-- The library function `p5.map(n, start1, stop1, start2, stop2)`, without
clamping: `(n - start1) / (stop1 - start1) * (stop2 - start2) + start2`, the
linear map that sends `start1` to `start2` and `stop1` to `stop2`, computed in
doubles. -/
def p5map (n start1 stop1 start2 stop2 : ℚ) : ℚ :=
  add64 (mul64 (div64 (sub64 n start1) (sub64 stop1 start1)) (sub64 stop2 start2)) start2

/-- Function `mapModifier` (its first argument `p5` is left out):
`parseInt(p5.map(val, 0.0, 1.0, toMin, toMax), 10)`. -/
def mapModifier (val toMin toMax : ℚ) : Int :=
  parseIntNum (p5map val 0 1 toMin toMax)

/-- The read `objs[idx]` for a number `idx`: `undefined` outside the array. -/
def objAt (objs : List Pair) (idx : Int) : Option Pair :=
  match idx with
  | Int.ofNat n => objs.get? n
  | Int.negSucc _ => none

/-- The index `parseInt(objs[k].x * (objs.length - 1), 10)` of `draw`; `none`
when `objs[k]` is missing (the property read throws). -/
def selectionIndex (objs : List Pair) (k : Nat) : Option Int :=
  match objs.get? k with
  | none => none
  | some o => some (parseIntNum (mul64 o.x ((objs.length : ℚ) - 1)))

/-- The value `objs[parseInt(objs[k].x * (objs.length - 1), 10)].x` of `draw`;
`none` when one of the two reads throws. -/
def selectX (objs : List Pair) (k : Nat) : Option ℚ :=
  match selectionIndex objs k with
  | none => none
  | some idx =>
    match objAt objs idx with
    | none => none
    | some o => some o.x

/-- The variable `rule` of `draw`: `mapModifier(p5, r, 0, 255)` with `r`
selected through `objs[0]`. -/
def drawRule (objs : List Pair) : Option Int :=
  match selectX objs 0 with
  | none => none
  | some r => some (mapModifier r 0 255)

/-- The variable `injectionPoints` of `draw`, selected through `objs[1]`. -/
def drawInjectionPoints (objs : List Pair) : Option ℚ :=
  selectX objs 1

/-- The variable `rarityProb` of `draw`, selected through `objs[2]`. -/
def drawRarityProb (objs : List Pair) : Option ℚ :=
  selectX objs 2

/-! ## The fold of `displayMirrored` -/

/-- The centre `p5.int(length / 2)` of `displayMirrored`. -/
def center (length : Nat) : Nat :=
  length / 2

/-- The index `j >= c ? c - (j % c) : j` of `displayMirrored`, for the centre
`c`; `NaN` when `c` is 0. -/
def foldIndex (c j : Nat) : IntOrNaN :=
  if j ≥ c then
    match jsRem j c with
    | some r => some ((c : Int) - r)
    | none => none
  else some (j : Int)

/-! ## The constructor and `start` with a real-valued width -/

/-- The field `this.width` left by the constructor for a canvas of the given
size and a cell scale: `(width - woffset) / scale` with
`woffset = width * 0.25 * ratio` and `ratio = height / width`, each operation
rounded to a double. The result is `none` when it is not a finite number: a
division by 0 or an operation that overflows gives `Infinity` or `NaN`. -/
def constructorWidth (width height scale : ℚ) : Option ℚ :=
  if width = 0 ∨ scale = 0 then none
  else
    (finite64 (height / width)).bind fun ratio =>
    (finite64 (width * (1 / 4))).bind fun quarter =>
    (finite64 (quarter * ratio)).bind fun woffset =>
    (finite64 (width - woffset)).bind fun rest =>
    finite64 (rest / scale)

/-- The field `this.height` left by the constructor: `(height - hoffset) / scale`
with `hoffset = height * 0.25`, each operation rounded to a double; `none` when
it is not a finite number. -/
def constructorHeight (height scale : ℚ) : Option ℚ :=
  if scale = 0 then none
  else
    (finite64 (height * (1 / 4))).bind fun hoffset =>
    (finite64 (height - hoffset)).bind fun rest =>
    finite64 (rest / scale)

/-- The loop `for (let i = 0; i < this.width; i++) cells[i] = 0` of `start`,
from index `i` on, for a real `width`; `none` when `fuel` iterations do not
reach its end. -/
def zeroLoop (width : ℚ) : Nat → Nat → List Cell → Option (List Cell)
  | 0, i, cells => if (i : ℚ) < width then none else some cells
  | fuel + 1, i, cells =>
    if (i : ℚ) < width then zeroLoop width fuel (i + 1) (arraySet cells i (some 0) none)
    else some cells

/-- The row built by `start` on a fresh object whose `this.width` is a real
number: the loop from an empty array, then the centre cell set to 1. The
working row and the recorded row receive the same assignments. -/
def startRow (width : ℚ) (fuel : Nat) : Option (List Cell) :=
  match zeroLoop width fuel 0 [] with
  | none => none
  | some cells => some (arraySet cells (cells.length / 2) (some 1) none)

/-! ## The class on the fields that `draw` passes -/

/-- The remainder operator `a % m` on numbers: `a - m * trunc(a / m)`, which
has the sign of the dividend and is exact in doubles; `NaN` for a zero
divisor. -/
def numRem (a m : ℚ) : Option ℚ :=
  if m = 0 then none
  else
    let q : ℚ := a / m
    let t : Int := if 0 ≤ q then ⌊q⌋ else ⌈q⌉
    some (a - m * (t : ℚ))

/-- Assignment `cells[idx] = v` where `idx` is any number or `NaN`. A whole
number from 0 to `2 ^ 32 - 2` names an element; anything else names a property
and leaves the elements untouched. -/
def assignAt (cells : List Cell) (idx : Option ℚ) (v : Cell) : List Cell :=
  match idx with
  | some q =>
    if 0 ≤ q ∧ q.den = 1 ∧ q < 2 ^ 32 - 1 then arraySet cells q.num.toNat v none else cells
  | none => cells

namespace Sketch

/-- The simulation fields of a `CellularAutomata` object whose `width`,
`height` and `injectionPoints` are any numbers. -/
structure CellularAutomata where
  /-- Field `this.rules`: the rule string (`null` before `setRule` is the empty string). -/
  rules : List Char
  /-- Field `this.cells`: the working row. -/
  cells : List Cell
  /-- Field `this.generation`. -/
  generation : Nat
  /-- Field `this.width`. -/
  width : ℚ
  /-- Field `this.height`. -/
  height : ℚ
  /-- Field `this.injection`. -/
  injection : List Pair
  /-- Field `this.injectionPoints`. -/
  injectionPoints : ℚ
  /-- Field `this.injectionCounter`. -/
  injectionCounter : Nat
  /-- Field `this.wholeSystem`: the recorded rows. -/
  wholeSystem : List (List Cell)
  deriving DecidableEq

/-- The state of an object whose constructor stored the given `width` and
`height`. -/
def fresh (width height : ℚ) : CellularAutomata :=
  { rules := [], cells := [], generation := 0, width := width, height := height,
    injection := [], injectionPoints := 0, injectionCounter := 0, wholeSystem := [] }

/-- The constructor, for a canvas of the given size and a cell scale: it stores
`constructorWidth` and `constructorHeight`; `none` when one of them is not a
finite number. -/
def new (width height scale : ℚ) : Option CellularAutomata :=
  match constructorWidth width height scale, constructorHeight height scale with
  | some w, some h => some (fresh w h)
  | _, _ => none

/-- Method `setRule`. -/
def setRule (s : CellularAutomata) (rule : Nat) : CellularAutomata :=
  { s with rules := ElementaryCA.CellularAutomata.parseRule rule }

/-- Method `applyBlockInjection`. -/
def applyBlockInjection (s : CellularAutomata) (injection : List Pair)
    (injectionPoints : ℚ) : CellularAutomata :=
  { s with injection := injection, injectionPoints := injectionPoints }

/-- Method `start`. The loop `for (let i = 0; i < this.width; i++)` runs over
the integers `i ≥ 0` below `width`, of which there are `⌈width⌉₊`. -/
def start (s : CellularAutomata) : CellularAutomata :=
  let cells := (List.range ⌈s.width⌉₊).foldl (fun cs i => arraySet cs i (some 0) none) s.cells
  let row := (List.range ⌈s.width⌉₊).foldl (fun r i => arraySet r i (some 0) none) []
  let center := cells.length / 2
  { s with
    cells := arraySet cells center (some 1) none
    wholeSystem := arraySet s.wholeSystem s.generation (arraySet row center (some 1) none) []
    generation := s.generation + 1 }

/-- Method `init`. -/
def init (s : CellularAutomata) (rule : Nat) (injection : List Pair)
    (injectionPoints : ℚ) : CellularAutomata :=
  start (applyBlockInjection (setRule s rule) injection injectionPoints)

/-- Method `getInjectionPoint`: `none` when `injection[i]` is missing (the
property read throws), else `parseInt(injection[i].x * 255, 10) % height`. -/
def getInjectionPoint (s : CellularAutomata) (i : Nat) : Option (Option ℚ) :=
  match s.injection.get? i with
  | none => none
  | some p => some (numRem (parseIntNum (mul64 p.x 255)) s.height)

/-- Method `injectSeed`: `none` when `injection[injectionCounter]` is missing,
else `cells[parseInt(y * 255, 10) % width] = 1` and the counter advances. -/
def injectSeed (s : CellularAutomata) : Option CellularAutomata :=
  match s.injection.get? s.injectionCounter with
  | none => none
  | some p =>
    let idx := numRem (parseIntNum (mul64 p.y 255)) s.width
    some { s with
      cells := assignAt s.cells idx (some 1)
      injectionCounter := s.injectionCounter + 1 }

/-- One iteration of the loop of `checkInjection`, for index `i`. -/
def checkInjectionAt (s : CellularAutomata) (i : Nat) : Option CellularAutomata :=
  match getInjectionPoint s i with
  | none => none
  | some point => if point = some (s.generation : ℚ) then injectSeed s else some s

/-- Method `checkInjection`: the loop `for (let i = 0; i < this.injectionPoints; i++)`
runs over the integers `i ≥ 0` below `injectionPoints`, of which there are
`⌈injectionPoints⌉₊`. -/
def checkInjection (s : CellularAutomata) : Option CellularAutomata :=
  (List.range ⌈s.injectionPoints⌉₊).foldlM checkInjectionAt s

/-- Method `generate`: injections, then the next row, which replaces the
working row and is stored at `wholeSystem[generation]`. -/
def generate (s : CellularAutomata) : Option CellularAutomata :=
  match checkInjection s with
  | none => none
  | some t =>
    let next := ElementaryCA.CellularAutomata.nextRow t.rules t.cells
    some { t with
      cells := next
      wholeSystem := arraySet t.wholeSystem t.generation next []
      generation := t.generation + 1 }

/-- Method `isComplete`. -/
def isComplete (s : CellularAutomata) : Bool :=
  decide ((s.generation : ℚ) ≥ s.height)

/-- How a bounded run of a loop ends. -/
inductive Run where
  /-- The loop ended in this state. -/
  | done (s : CellularAutomata)
  /-- A step threw. -/
  | threw
  /-- The step budget ran out before the loop ended. -/
  | outOfFuel

/-- Method `generateAll`: `while (!isComplete()) generate()`, run for at most
`fuel` iterations. -/
def generateAll : Nat → CellularAutomata → Run
  | 0, s => if isComplete s then Run.done s else Run.outOfFuel
  | fuel + 1, s =>
    if isComplete s then Run.done s
    else
      match generate s with
      | none => Run.threw
      | some t => generateAll fuel t

/-- The state after `n` calls of `generate`, `none` if one of them threw. -/
def generateTimes : Nat → CellularAutomata → Option CellularAutomata
  | 0, s => some s
  | n + 1, s =>
    match generate s with
    | none => none
    | some t => generateTimes n t

/-- The result of a call that may throw, as the end of a run. -/
def runOfOption (r : Option CellularAutomata) : Run :=
  match r with
  | none => Run.threw
  | some t => Run.done t

/-- The loop `for (let i = 0; i < this.injectionPoints; i++)` of
`checkInjection` as the program runs it, from index `i` on, for at most `fuel`
iterations: the test compares the counter with the number `points`. -/
def checkInjectionLoop (points : ℚ) : Nat → Nat → CellularAutomata → Run
  | 0, i, s => if (i : ℚ) < points then Run.outOfFuel else Run.done s
  | fuel + 1, i, s =>
    if (i : ℚ) < points then
      match checkInjectionAt s i with
      | none => Run.threw
      | some t => checkInjectionLoop points fuel (i + 1) t
    else Run.done s

end Sketch

/-- An object with natural-number fields as an object with numeric fields. -/
def toSketch (s : CellularAutomata) : Sketch.CellularAutomata :=
  { rules := s.rules, cells := s.cells, generation := s.generation, width := s.width,
    height := s.height, injection := s.injection, injectionPoints := s.injectionPoints,
    injectionCounter := s.injectionCounter, wholeSystem := s.wholeSystem }

/-! ## Vocabulary of the statements -/

/-- The generation trigger of a pair in the words of the specification:
`floor(x * 255) mod rowHeight`, the product being the program's. -/
def triggerOf (p : Pair) (rowHeight : Nat) : Nat :=
  ⌊mul64 p.x 255⌋₊ % rowHeight

/-- The target column of a pair in the words of the specification:
`floor(y * 255) mod rowWidth`, the product being the program's. -/
def columnOf (p : Pair) (rowWidth : Nat) : Nat :=
  ⌊mul64 p.y 255⌋₊ % rowWidth

/-- Whether the test `generation == getInjectionPoint(i)` of `checkInjection`
succeeds for index `i` at generation `g`. -/
def fires (inj : List Pair) (height g i : Nat) : Bool :=
  decide ((inj.get? i).map (fun p => jsRem (parseIntNum (mul64 p.x 255)) height)
    = some (some (g : Int)))

/-- Whether the trigger of index `i` is a generation at or after `g`. -/
def pendingAt (inj : List Pair) (height g i : Nat) : Bool :=
  match (inj.get? i).map (fun p => jsRem (parseIntNum (mul64 p.x 255)) height) with
  | some (some k) => decide ((g : Int) ≤ k)
  | _ => false

/-- The index `injectSeed` writes to when the counter is `j`. -/
def target (inj : List Pair) (width j : Nat) : IntOrNaN :=
  match inj.get? j with
  | some p => jsRem (parseIntNum (mul64 p.y 255)) width
  | none => none

/-- The number of indices `i` in `[0, P)` whose trigger (in the words of the
specification) equals the generation `g`. -/
def triggerCount (inj : List Pair) (P rowHeight g : Nat) : Nat :=
  (List.range P).countP
    (fun i => decide ((inj.get? i).map (fun p => triggerOf p rowHeight) = some g))

/-- The row after `m` injections that start at counter `k`: the `j`-th of them
sets the column of pair `k + j` to 1. -/
def injectColumns (inj : List Pair) (rowWidth k m : Nat) (cells : List Cell) : List Cell :=
  (List.range m).foldl
    (fun cs j =>
      match inj.get? (k + j) with
      | some p => arraySet cs (columnOf p rowWidth) (some 1) none
      | none => cs)
    cells

/-- A state in which exactly one trigger fires and the product `y * 255` is below
`1e-6`: width 6 and height 6 (the constructor's values for a canvas of 8 by 8
with scale 1), rule 30, the one pair `x = 1/128`, `y = 2^-31` (the generator's
outputs `2^25 / 2^32` and `2 / 2^32`), right after `init`. -/
def smallColumnState : CellularAutomata :=
  CellularAutomata.init (CellularAutomata.new 6 6) 30 [⟨1 / 128, 1 / 2 ^ 31⟩] 1

/-- A state whose one pair has a product `x * 255` below `1e-6`: width 6 and
height 6, rule 30, the pair `x = 2^-31`, `y = 0`, right after `init`. -/
def smallTriggerState : CellularAutomata :=
  CellularAutomata.init (CellularAutomata.new 6 6) 30 [⟨1 / 2 ^ 31, 0⟩] 1

/-- A block of three transactions whose first `x` is `2^-32`, the smallest
positive output of the generator. -/
def smallSelectionBlock : List Pair :=
  [⟨1 / 2 ^ 32, 0⟩, ⟨1 / 4, 0⟩, ⟨3 / 4, 0⟩]

/-- A row all of whose cells are the numbers 0 or 1. -/
def Binary (row : List Cell) : Prop :=
  ∀ c ∈ row, c = some 0 ∨ c = some 1

/-- The state `t` differs from `s` at most in the working row and the injection
counter. -/
def SameFrame (s t : CellularAutomata) : Prop :=
  t.rules = s.rules ∧ t.generation = s.generation ∧ t.width = s.width ∧
    t.height = s.height ∧ t.injection = s.injection ∧
    t.injectionPoints = s.injectionPoints ∧ t.wholeSystem = s.wholeSystem

/-- The invariant of a run started by `init` on a fresh object with the given
dimensions, rule and injection data. The `budget` field bounds the injection
counter by the triggers that can no longer fire; `cells_last` says that the
working row is the row recorded last. -/
structure Inv (w h rule : Nat) (inj : List Pair) (P : Nat) (s : CellularAutomata) : Prop where
  width_eq : s.width = w
  height_eq : s.height = h
  rules_eq : s.rules = CellularAutomata.parseRule rule
  injection_eq : s.injection = inj
  points_eq : s.injectionPoints = P
  points_le : P ≤ inj.length
  gen_pos : 1 ≤ s.generation
  hist_len : s.wholeSystem.length = s.generation
  budget : s.injectionCounter + (List.range P).countP (pendingAt inj h s.generation) ≤ P
  cells_len : 1 ≤ w → s.cells.length = w
  rows_len : 1 ≤ w → ∀ row ∈ s.wholeSystem, row.length = w
  cells_last : s.wholeSystem.get? (s.generation - 1) = some s.cells

/-- The invariant of a run that `draw` starts, on an object with the stored
dimensions `W` and `H`: the injection counter is 0, or it is 1 and the trigger
of pair 0 is a generation that has passed. -/
def SketchInv (W H : ℚ) (objs : List Pair) (p : ℚ) (s : Sketch.CellularAutomata) : Prop :=
  s.width = W ∧ s.height = H ∧ s.injection = objs ∧ s.injectionPoints = p ∧
    1 ≤ s.generation ∧
    (s.injectionCounter = 0 ∨
      (s.injectionCounter = 1 ∧ ∃ p0 g, objs.get? 0 = some p0 ∧ g < s.generation ∧
        numRem (parseIntNum (mul64 p0.x 255)) H = some ((g : Nat) : ℚ)))

/-! ## Theorems -/

open CellularAutomata

/-! ### Arrays and remainders -/

theorem arraySet_length {α : Type} (xs : List α) (i : Nat) (v hole : α) :
    (arraySet xs i v hole).length = max xs.length (i + 1) := by
  unfold arraySet
  split
  · simp; omega
  · simp; omega

theorem arraySet_of_lt {α : Type} (xs : List α) (i : Nat) (v hole : α)
    (h : i < xs.length) : arraySet xs i v hole = xs.set i v := by
  simp [arraySet, h]

theorem arraySet_get_self {α : Type} (xs : List α) (i : Nat) (v hole : α) :
    (arraySet xs i v hole).get? i = some v := by
  unfold arraySet
  split
  · next h => simp [List.getElem?_set, h]
  · next h =>
    have h1 : (xs ++ List.replicate (i - xs.length) hole).length = i := by simp; omega
    rw [List.get?_eq_getElem?, List.getElem?_append_right (by omega)]
    simp [h1]

theorem arraySet_append {α : Type} (xs : List α) (v hole : α) :
    arraySet xs xs.length v hole = xs ++ [v] := by
  simp [arraySet]

theorem foldl_arraySet_range {α : Type} (n : Nat) (v hole : α) :
    (List.range n).foldl (fun cs i => arraySet cs i v hole) [] = List.replicate n v := by
  induction n with
  | zero => rfl
  | succ n ih =>
    rw [List.range_succ, List.foldl_append, ih]
    simp [arraySet, List.replicate_succ']

theorem neg_lt_tmod (n : Int) (m : Nat) (hm : 0 < m) : -(m : Int) < Int.tmod n m := by
  cases n with
  | ofNat k =>
    have : (0 : Int) ≤ Int.tmod (Int.ofNat k) m := Int.tmod_nonneg _ (Int.ofNat_nonneg k)
    omega
  | negSucc k =>
    show -(m : Int) < -Int.ofNat (k.succ % m)
    have : k.succ % m < m := Nat.mod_lt _ hm
    simp only [Int.ofNat_eq_coe]
    omega

/-- For a positive modulus, `modulo` is the non-negative mathematical modulo. -/
theorem modulo_eq_emod (n : Int) (m : Nat) (hm : 0 < m) :
    modulo n m = some (n % (m : Int)) := by
  have hm0 : (m : Int) ≠ 0 := by omega
  have hlow := neg_lt_tmod n m hm
  simp only [modulo, jsRem, hm0, if_false]
  congr 1
  rw [Int.tmod_eq_emod (by omega) (by omega), Int.add_emod_self]
  have h2 := Int.tmod_add_tdiv n m
  conv_rhs => rw [← h2]
  simp

theorem cellAt_of_nonneg (cells : List Cell) (k : Int) (hk : 0 ≤ k) :
    cellAt cells (some k) = cells.getD k.toNat none := by
  cases k with
  | ofNat n => rfl
  | negSucc n => exact absurd hk (by simp [Int.negSucc_lt_zero])

theorem nextRow_length (rules : List Char) (cells : List Cell) :
    (nextRow rules cells).length = cells.length := by
  simp [nextRow]

theorem nextRow_get (rules : List Char) (cells : List Cell) (i : Nat)
    (hi : i < cells.length) :
    (nextRow rules cells).get? i =
      some (executeRules rules
        (cells.getD (((i : Int) - 1) % (cells.length : Int)).toNat none)
        (cells.getD i none)
        (cells.getD (((i : Int) + 1) % (cells.length : Int)).toNat none)) := by
  have hpos : 0 < cells.length := by omega
  have hne : ((cells.length : Nat) : Int) ≠ 0 := by omega
  simp only [nextRow, List.get?_eq_getElem?, List.getElem?_map, List.getElem?_range hi,
    Option.map_some', modulo_eq_emod _ _ hpos]
  rw [cellAt_of_nonneg _ _ (Int.emod_nonneg _ hne), cellAt_of_nonneg _ _ (Int.emod_nonneg _ hne),
    cellAt_of_nonneg _ _ (Int.ofNat_nonneg i)]
  simp

/-! ### The loop of `checkInjection` when nothing fires -/

theorem foldlM_checkInjectionAt_idle (s : CellularAutomata) (is : List Nat)
    (h : ∀ i ∈ is, checkInjectionAt s i = some s) :
    is.foldlM checkInjectionAt s = some s := by
  induction is with
  | nil => rfl
  | cons i is ih =>
    rw [List.foldlM_cons, h i (List.mem_cons_self i is)]
    exact ih (fun j hj => h j (List.mem_cons_of_mem i hj))

/-! ### Claims about the rule table and one generation -/

/-- C1: a `generate` step in which no trigger equals the generation turns a
working row of length `w ≥ 1` into the row whose cell `i` is `executeRules`
of the cells at `(i - 1) mod w`, `i` and `(i + 1) mod w` (non-negative modulo,
so column `0` reads column `w - 1` on its left and column `w - 1` reads column
`0` on its right); the row is appended to the history and the generation
counter grows by one. Holds for every rule string and every row, in a state
whose history has as many rows as the generation counter says (as in every
state of a run, `Inv.hist_len`). -/
theorem generate_without_injection (s : CellularAutomata) (w : Nat) (hw : 1 ≤ w)
    (hlen : s.cells.length = w) (hhist : s.wholeSystem.length = s.generation)
    (hno : ∀ i, i < s.injectionPoints →
      ∃ p, getInjectionPoint s i = some p ∧ p ≠ some (s.generation : Int)) :
    ∃ t, generate s = some t ∧ t.cells.length = w ∧
      (∀ i, i < w → t.cells.get? i = some (executeRules s.rules
        (s.cells.getD (((i : Int) - 1) % (w : Int)).toNat none)
        (s.cells.getD i none)
        (s.cells.getD (((i : Int) + 1) % (w : Int)).toNat none))) ∧
      (((0 : Int) - 1) % (w : Int)).toNat = w - 1 ∧
      ((((w - 1 : Nat) : Int) + 1) % (w : Int)).toNat = 0 ∧
      t.wholeSystem = s.wholeSystem ++ [t.cells] ∧
      t.generation = s.generation + 1 := by
  have hidle : checkInjection s = some s := by
    apply foldlM_checkInjectionAt_idle
    intro i hi
    obtain ⟨p, hp, hne⟩ := hno i (List.mem_range.mp hi)
    simp [checkInjectionAt, hp, hne]
  refine ⟨_, by simp only [generate, hidle]; rfl, ?_, ?_, ?_, ?_, ?_, rfl⟩
  · simp [nextRow_length, hlen]
  · intro i hi
    have := nextRow_get s.rules s.cells i (by omega)
    rw [hlen] at this
    exact this
  · have h1 : ((0 : Int) - 1) % (w : Int) = (w : Int) - 1 := by
      rw [← Int.add_emod_self, Int.emod_eq_of_lt (by omega) (by omega)]; omega
    rw [h1]; omega
  · have h2 : ((w - 1 : Nat) : Int) + 1 = (w : Int) := by omega
    rw [h2, Int.emod_self]; rfl
  · show arraySet s.wholeSystem s.generation _ [] = _
    rw [← hhist, arraySet_append]

/-- Witness for C1: rule 30 on the three-cell start row. -/
theorem generate_without_injection_witness :
    ∃ t, generate (init (new 3 5) 30 [] 0) = some t ∧ t.cells.length = 3 ∧
      (∀ i, i < 3 → t.cells.get? i = some (executeRules (init (new 3 5) 30 [] 0).rules
        ((init (new 3 5) 30 [] 0).cells.getD (((i : Int) - 1) % ((3 : Nat) : Int)).toNat none)
        ((init (new 3 5) 30 [] 0).cells.getD i none)
        ((init (new 3 5) 30 [] 0).cells.getD (((i : Int) + 1) % ((3 : Nat) : Int)).toNat none))) ∧
      (((0 : Int) - 1) % ((3 : Nat) : Int)).toNat = 3 - 1 ∧
      ((((3 - 1 : Nat) : Int) + 1) % ((3 : Nat) : Int)).toNat = 0 ∧
      t.wholeSystem = (init (new 3 5) 30 [] 0).wholeSystem ++ [t.cells] ∧
      t.generation = (init (new 3 5) 30 [] 0).generation + 1 :=
  generate_without_injection (init (new 3 5) 30 [] 0) 3 (by decide) (by decide) (by decide)
    (fun i hi => absurd hi (Nat.not_lt_zero i))

set_option maxRecDepth 1000000 in
theorem executeRules_parseRule_all :
    ∀ R, R < 256 → ∀ l, l < 2 → ∀ c, c < 2 → ∀ r, r < 2 →
      (parseRule R).get? (7 - (4 * l + 2 * c + r))
          = some (Nat.digitChar (R / 2 ^ (4 * l + 2 * c + r) % 2)) ∧
        executeRules (parseRule R) (some l) (some c) (some r)
          = some (R / 2 ^ (4 * l + 2 * c + r) % 2) := by
  decide!

theorem parseInt_digitChar_bit (b : Nat) (hb : b < 2) :
    parseInt [Nat.digitChar b] 10 = some b := by
  interval_cases b <;> rfl

/-- C2: for a rule `R ≤ 255` and bits `left, center, right`, with
`n = 4*left + 2*center + right`, the entry of `parseRule R` at position `7 - n`
is the digit character of binary digit `n` of `R`, and `executeRules` returns
that entry read as a number, which is `floor(R / 2^n) mod 2`. -/
theorem executeRules_parseRule (R left center right : Nat) (hR : R ≤ 255)
    (hl : left ≤ 1) (hc : center ≤ 1) (hr : right ≤ 1) :
    (parseRule R).get? (7 - (4 * left + 2 * center + right))
        = some (Nat.digitChar (R / 2 ^ (4 * left + 2 * center + right) % 2)) ∧
      executeRules (parseRule R) (some left) (some center) (some right)
        = parseInt [Nat.digitChar (R / 2 ^ (4 * left + 2 * center + right) % 2)] 10 ∧
      executeRules (parseRule R) (some left) (some center) (some right)
        = some (R / 2 ^ (4 * left + 2 * center + right) % 2) := by
  have h := executeRules_parseRule_all R (by omega) left (by omega) center (by omega)
    right (by omega)
  refine ⟨h.1, ?_, h.2⟩
  rw [h.2, parseInt_digitChar_bit _ (Nat.mod_lt _ (by decide))]

/-- Witness for C2: rule 30 on the neighbourhood `1 0 0` (n = 4). -/
theorem executeRules_parseRule_witness :
    executeRules (parseRule 30) (some 1) (some 0) (some 0) = some 1 :=
  (executeRules_parseRule 30 1 0 0 (by decide) (by decide) (by decide) (by decide)).2.2

set_option maxRecDepth 1000000 in
theorem parseRule_all :
    ∀ r, r < 256 →
      (parseRule r).length = 8 ∧
        (∀ i, i < 8 → (parseRule r).get? i = some (Nat.digitChar (r / 2 ^ (7 - i) % 2))) ∧
        parseInt (parseRule r) 2 = some r := by
  decide!

/-- C3: for `r ≤ 255`, `parseRule r` has exactly 8 characters, character `i` is
the binary digit of weight `2^(7-i)` of `r` (most significant first, zeros on
the left), and reading the string back in base 2 gives `r`. -/
theorem parseRule_roundtrip (r : Nat) (hr : r ≤ 255) :
    (parseRule r).length = 8 ∧
      (∀ i, i < 8 → (parseRule r).get? i = some (Nat.digitChar (r / 2 ^ (7 - i) % 2))) ∧
      parseInt (parseRule r) 2 = some r :=
  parseRule_all r (by omega)

/-- Witness for C3: rule 204 is `11001100`. -/
theorem parseRule_roundtrip_witness :
    (parseRule 204).length = 8 ∧ parseInt (parseRule 204) 2 = some 204 :=
  ⟨(parseRule_roundtrip 204 (by decide)).1, (parseRule_roundtrip 204 (by decide)).2.2⟩

/-- C4: for a row width `w ≥ 1`, after `init` the history holds exactly one row,
of length `w`, with cell `floor(w/2)` equal to 1 and every other cell 0, and
the generation counter is 1. -/
theorem init_first_generation (w h rule : Nat) (inj : List Pair) (P : Nat) (hw : 1 ≤ w) :
    ∃ row, (init (new w h) rule inj P).wholeSystem = [row] ∧ row.length = w ∧
      row.get? (w / 2) = some (some 1) ∧
      (∀ i, i < w → i ≠ w / 2 → row.get? i = some (some 0)) ∧
      (init (new w h) rule inj P).generation = 1 := by
  have hc : w / 2 < w := Nat.div_lt_self (by omega) (by decide)
  refine ⟨(List.replicate w (some 0)).set (w / 2) (some 1), ?_, by simp, ?_, ?_, rfl⟩
  · have hrow : arraySet (List.replicate w (some 0 : Cell)) (w / 2) (some 1) none
        = (List.replicate w (some 0)).set (w / 2) (some 1) :=
      arraySet_of_lt _ _ _ _ (by simpa using hc)
    simp only [init, start, applyBlockInjection, setRule, new, foldl_arraySet_range,
      List.length_replicate, hrow]
    rfl
  · simp [List.getElem?_set, hc]
  · intro i hi hne
    simp [List.getElem?_set, hi, Ne.symm hne, List.getElem?_replicate]

/-- Witness for C4: width 10. -/
theorem init_first_generation_witness :
    ∃ row, (init (new 10 5) 204 [] 0).wholeSystem = [row] ∧ row.length = 10 ∧
      row.get? (10 / 2) = some (some 1) ∧
      (∀ i, i < 10 → i ≠ 10 / 2 → row.get? i = some (some 0)) ∧
      (init (new 10 5) 204 [] 0).generation = 1 :=
  init_first_generation 10 5 204 [] 0 (by decide)

/-! ### The loop of `checkInjection` in general -/

theorem getInjectionPoint_eq (s : CellularAutomata) (i : Nat) :
    getInjectionPoint s i
      = (s.injection.get? i).map (fun p => jsRem (parseIntNum (mul64 p.x 255)) s.height) := by
  unfold getInjectionPoint
  cases s.injection.get? i <;> rfl

theorem checkInjectionAt_of_fires (s : CellularAutomata) (i : Nat)
    (hf : fires s.injection s.height s.generation i = true) :
    checkInjectionAt s i = injectSeed s := by
  have h := of_decide_eq_true hf
  simp only [checkInjectionAt, getInjectionPoint_eq, h, if_true]

theorem checkInjectionAt_of_not_fires (s : CellularAutomata) (i : Nat)
    (hi : i < s.injection.length)
    (hf : fires s.injection s.height s.generation i = false) :
    checkInjectionAt s i = some s := by
  have h := of_decide_eq_false hf
  obtain ⟨p, hp⟩ : ∃ p, s.injection.get? i = some p := by
    simp [List.get?_eq_getElem?, List.getElem?_eq_getElem hi]
  rw [hp] at h
  simp only [Option.map_some'] at h
  have h2 : jsRem (parseIntNum (mul64 p.x 255)) s.height ≠ some (s.generation : Int) :=
    fun e => h (by rw [e])
  simp only [checkInjectionAt, getInjectionPoint_eq, hp, Option.map_some', if_neg h2]

theorem injectSeed_eq (s : CellularAutomata) (hk : s.injectionCounter < s.injection.length) :
    injectSeed s = some { s with
      cells := assignCell s.cells (target s.injection s.width s.injectionCounter) (some 1)
      injectionCounter := s.injectionCounter + 1 } := by
  obtain ⟨p, hp⟩ : ∃ p, s.injection.get? s.injectionCounter = some p := by
    simp [List.get?_eq_getElem?, List.getElem?_eq_getElem hk]
  simp only [injectSeed, target, hp]

/-- The cells after `m` injections that start at counter `k`. -/
theorem foldl_range_succ_shift (f : Nat → List Cell → List Cell) (m : Nat) (cs : List Cell) :
    (List.range (m + 1)).foldl (fun acc j => f j acc) cs
      = (List.range m).foldl (fun acc j => f (j + 1) acc) (f 0 cs) := by
  rw [List.range_succ_eq_map, List.foldl_cons, List.foldl_map]

theorem foldlM_checkInjectionAt (is : List Nat) (s : CellularAutomata)
    (hb : ∀ i ∈ is, i < s.injection.length)
    (hk : s.injectionCounter + is.countP (fires s.injection s.height s.generation)
      ≤ s.injection.length) :
    is.foldlM checkInjectionAt s = some { s with
      cells := (List.range (is.countP (fires s.injection s.height s.generation))).foldl
        (fun cs j => assignCell cs (target s.injection s.width (s.injectionCounter + j)) (some 1))
        s.cells
      injectionCounter :=
        s.injectionCounter + is.countP (fires s.injection s.height s.generation) } := by
  induction is generalizing s with
  | nil => simp
  | cons i is ih =>
    have hi : i < s.injection.length := hb i (List.mem_cons_self i is)
    have hb2 : ∀ j ∈ is, j < s.injection.length := fun j hj => hb j (List.mem_cons_of_mem i hj)
    rw [List.foldlM_cons]
    cases hf : fires s.injection s.height s.generation i with
    | false =>
      rw [checkInjectionAt_of_not_fires s i hi hf]
      rw [List.countP_cons_of_neg _ _ (by simp [hf])] at hk ⊢
      exact ih s hb2 hk
    | true =>
      rw [List.countP_cons_of_pos _ _ hf] at hk ⊢
      rw [checkInjectionAt_of_fires s i hf, injectSeed_eq s (by omega)]
      simp only [Option.some_bind, Option.bind_eq_bind]
      have key := ih { s with
        cells := assignCell s.cells (target s.injection s.width s.injectionCounter) (some 1)
        injectionCounter := s.injectionCounter + 1 } hb2 (by simp only; omega)
      rw [key]
      simp only [foldl_range_succ_shift
        (fun j cs => assignCell cs (target s.injection s.width (s.injectionCounter + j)) (some 1))]
      simp only [Nat.add_zero, Nat.add_assoc, Nat.add_comm 1]

theorem checkInjection_eq (s : CellularAutomata)
    (hP : s.injectionPoints ≤ s.injection.length)
    (hk : s.injectionCounter
        + (List.range s.injectionPoints).countP (fires s.injection s.height s.generation)
      ≤ s.injection.length) :
    checkInjection s = some { s with
      cells := (List.range
          ((List.range s.injectionPoints).countP (fires s.injection s.height s.generation))).foldl
        (fun cs j => assignCell cs (target s.injection s.width (s.injectionCounter + j)) (some 1))
        s.cells
      injectionCounter := s.injectionCounter
        + (List.range s.injectionPoints).countP (fires s.injection s.height s.generation) } :=
  foldlM_checkInjectionAt _ s (fun i hi => by have := List.mem_range.mp hi; omega) hk


/-! ### The invariant of a run -/

theorem pendingAt_split (inj : List Pair) (h g i : Nat) :
    (if pendingAt inj h g i then 1 else 0)
      = (if fires inj h g i then 1 else 0) + (if pendingAt inj h (g + 1) i then 1 else 0) := by
  unfold pendingAt fires
  cases (inj.get? i).map (fun p => jsRem (parseIntNum (mul64 p.x 255)) h) with
  | none => simp
  | some v =>
    cases v with
    | none => simp
    | some k =>
      simp only [Option.some.injEq, decide_eq_true_eq]
      by_cases h1 : k = (g : Int)
      · subst h1; simp
      · by_cases h2 : (g : Int) ≤ k
        · have h3 : (g : Int) + 1 ≤ k := by omega
          simp [h1, h2, h3]
        · have h3 : ¬ ((g : Int) + 1 ≤ k) := by omega
          simp [h1, h2, h3]

theorem countP_pendingAt (inj : List Pair) (h g : Nat) (l : List Nat) :
    l.countP (pendingAt inj h g)
      = l.countP (fires inj h g) + l.countP (pendingAt inj h (g + 1)) := by
  induction l with
  | nil => rfl
  | cons i l ih =>
    simp only [List.countP_cons, ih, pendingAt_split inj h g i]
    omega

theorem assignCell_jsRem_length (cells : List Cell) (a : Int) (w : Nat) (v : Cell)
    (hw : 1 ≤ w) (hlen : cells.length = w) :
    (assignCell cells (jsRem a w) v).length = w := by
  have hw0 : (w : Int) ≠ 0 := by omega
  have hlt : Int.tmod a w < w := Int.tmod_lt_of_pos a (by omega)
  simp only [jsRem, hw0, if_false]
  cases hk : Int.tmod a w with
  | ofNat n =>
    rw [hk] at hlt
    have hn : n < w := by simpa using hlt
    simp only [assignCell, arraySet_length, hlen]
    omega
  | negSucc n => simpa [assignCell] using hlen

theorem assignCell_target_length (cells : List Cell) (inj : List Pair) (w j : Nat) (v : Cell)
    (hw : 1 ≤ w) (hlen : cells.length = w) :
    (assignCell cells (target inj w j) v).length = w := by
  unfold target
  cases inj.get? j with
  | none => simpa [assignCell] using hlen
  | some p => exact assignCell_jsRem_length cells _ w v hw hlen

theorem foldl_assignCell_length (inj : List Pair) (w k : Nat) (js : List Nat)
    (cells : List Cell) (hw : 1 ≤ w) (hlen : cells.length = w) :
    (js.foldl (fun cs j => assignCell cs (target inj w (k + j)) (some 1)) cells).length = w := by
  induction js generalizing cells with
  | nil => exact hlen
  | cons j js ih =>
    rw [List.foldl_cons]
    exact ih _ (assignCell_target_length cells inj w (k + j) (some 1) hw hlen)

theorem arraySet_at_length {α : Type} (xs : List α) (n : Nat) (hn : xs.length = n)
    (v hole : α) : arraySet xs n v hole = xs ++ [v] := by
  subst hn
  exact arraySet_append xs v hole

theorem init_inv (w h rule : Nat) (inj : List Pair) (P : Nat) (hP : P ≤ inj.length) :
    Inv w h rule inj P (init (new w h) rule inj P) := by
  refine ⟨rfl, rfl, rfl, rfl, rfl, hP, by simp [init, start], ?_, ?_, ?_, ?_, ?_⟩
  · simp [init, start, applyBlockInjection, setRule, new, arraySet]
  · have : (List.range P).countP (pendingAt inj h (init (new w h) rule inj P).generation)
        ≤ (List.range P).length := List.countP_le_length _
    simp only [List.length_range] at this
    simpa [init, start, applyBlockInjection, setRule, new] using this
  · intro hw
    have hc : w / 2 < w := Nat.div_lt_self (by omega) (by decide)
    simp only [init, start, applyBlockInjection, setRule, new, foldl_arraySet_range,
      List.length_replicate, arraySet_length]
    omega
  · intro hw row hrow
    have hc : w / 2 < w := Nat.div_lt_self (by omega) (by decide)
    simp only [init, start, applyBlockInjection, setRule, new, foldl_arraySet_range,
      List.length_replicate] at hrow
    have : row = arraySet (List.replicate w (some 0 : Cell)) (w / 2) (some 1) none := by
      simpa [arraySet] using hrow
    rw [this, arraySet_length, List.length_replicate]
    omega
  · simp [init, start, applyBlockInjection, setRule, new, arraySet]

theorem generate_inv (w h rule : Nat) (inj : List Pair) (P : Nat) (s : CellularAutomata)
    (hs : Inv w h rule inj P s) :
    ∃ t, generate s = some t ∧ Inv w h rule inj P t ∧ t.generation = s.generation + 1 := by
  obtain ⟨hwd, hht, hru, hin, hpt, hple, hgp, hhl, hbud, hcl, hrl, _⟩ := hs
  have hsplit := countP_pendingAt inj h s.generation (List.range P)
  have hle : (List.range P).countP (pendingAt inj h (s.generation + 1)) ≤ P := by
    have := List.countP_le_length (pendingAt inj h (s.generation + 1)) (l := List.range P)
    simpa using this
  have hchk := checkInjection_eq s (by rw [hpt, hin]; exact hple)
    (by rw [hpt, hin, hht]; omega)
  refine ⟨_, by simp only [generate, hchk]; rfl, ?_, rfl⟩
  refine ⟨hwd, hht, hru, hin, hpt, hple, ?_, ?_, ?_, ?_, ?_, ?_⟩
  · show 1 ≤ s.generation + 1
    omega
  · show (arraySet s.wholeSystem s.generation _ []).length = s.generation + 1
    rw [arraySet_length]; omega
  · show s.injectionCounter + _ + (List.range P).countP (pendingAt inj h (s.generation + 1)) ≤ P
    rw [hpt, hin, hht]; omega
  · intro hw
    show (nextRow _ _).length = w
    rw [nextRow_length, hwd]
    exact foldl_assignCell_length _ w _ _ _ hw (hcl hw)
  · intro hw row hrow
    have hnext : (nextRow s.rules ((List.range
        ((List.range s.injectionPoints).countP (fires s.injection s.height s.generation))).foldl
        (fun cs j => assignCell cs (target s.injection s.width (s.injectionCounter + j)) (some 1))
        s.cells)).length = w := by
      rw [nextRow_length, hwd]
      exact foldl_assignCell_length _ w _ _ _ hw (hcl hw)
    have hrow2 : row ∈ arraySet s.wholeSystem s.generation (nextRow s.rules ((List.range
        ((List.range s.injectionPoints).countP (fires s.injection s.height s.generation))).foldl
        (fun cs j => assignCell cs (target s.injection s.width (s.injectionCounter + j)) (some 1))
        s.cells)) [] := hrow
    rw [arraySet_at_length _ _ hhl, List.mem_append, List.mem_singleton] at hrow2
    rcases hrow2 with hmem | heq
    · exact hrl hw row hmem
    · rw [heq]; exact hnext
  · show (arraySet s.wholeSystem s.generation _ []).get? (s.generation + 1 - 1) = some _
    rw [Nat.add_sub_cancel]
    exact arraySet_get_self _ _ _ _

theorem generateTimes_succ (n : Nat) (s : CellularAutomata) :
    generateTimes (n + 1) s = (generateTimes n s).bind generate := by
  induction n generalizing s with
  | zero =>
    cases hg : generate s <;> simp [generateTimes, hg]
  | succ n ih =>
    rw [generateTimes]
    cases hg : generate s with
    | none => simp [generateTimes, hg]
    | some t =>
      simp only []
      rw [ih t]
      simp [generateTimes, hg]

theorem generateTimes_inv (w h rule : Nat) (inj : List Pair) (P : Nat) (hP : P ≤ inj.length)
    (n : Nat) :
    ∃ s, generateTimes n (init (new w h) rule inj P) = some s ∧ Inv w h rule inj P s ∧
      s.generation = n + 1 := by
  induction n with
  | zero => exact ⟨_, rfl, init_inv w h rule inj P hP, rfl⟩
  | succ n ih =>
    obtain ⟨s, hs, hinv, hgen⟩ := ih
    obtain ⟨t, ht, htinv, htgen⟩ := generate_inv w h rule inj P s hinv
    refine ⟨t, ?_, htinv, by omega⟩
    rw [generateTimes_succ, hs]
    exact ht

theorem generateAll_inv (w h rule : Nat) (inj : List Pair) (P : Nat) (fuel : Nat)
    (s : CellularAutomata) (hs : Inv w h rule inj P s) (hle : s.generation ≤ h)
    (hfuel : h - s.generation ≤ fuel) :
    ∃ t, generateAll fuel s = Run.done t ∧ Inv w h rule inj P t ∧ t.generation = h := by
  induction fuel generalizing s with
  | zero =>
    have hge : s.generation = h := by omega
    refine ⟨s, ?_, hs, hge⟩
    simp [generateAll, isComplete, hs.height_eq, hge]
  | succ fuel ih =>
    by_cases hc : s.generation = h
    · refine ⟨s, ?_, hs, hc⟩
      simp [generateAll, isComplete, hs.height_eq, hc]
    · obtain ⟨t, ht, htinv, htgen⟩ := generate_inv w h rule inj P s hs
      obtain ⟨u, hu, huinv, hugen⟩ := ih t htinv (by omega) (by omega)
      refine ⟨u, ?_, huinv, hugen⟩
      have hnc : isComplete s = false := by
        simp [isComplete, hs.height_eq]; omega
      simp only [generateAll, hnc, ht]
      simpa using hu


/-! ### Claims about whole runs -/

/-- C5: for a row height `h ≥ 1`, any rule, any row width and any injection data
with `injectionPoints` at most the number of pairs, `generateAll` after `init`
ends without throwing within `h - 1` iterations; on return `isComplete` holds
and the history has exactly `h` rows. -/
theorem generateAll_terminates (w h rule : Nat) (inj : List Pair) (P : Nat) (hh : 1 ≤ h)
    (hP : P ≤ inj.length) (fuel : Nat) (hfuel : h - 1 ≤ fuel) :
    ∃ t, generateAll fuel (init (new w h) rule inj P) = Run.done t ∧
      isComplete t = true ∧ t.wholeSystem.length = h := by
  obtain ⟨t, ht, hinv, hgen⟩ := generateAll_inv w h rule inj P fuel
    (init (new w h) rule inj P) (init_inv w h rule inj P hP) hh hfuel
  refine ⟨t, ht, ?_, ?_⟩
  · simp [isComplete, hinv.height_eq, hgen]
  · rw [hinv.hist_len, hgen]

/-- Witness for C5: rule 30, five columns, four rows, one injection pair. -/
theorem generateAll_terminates_witness :
    ∃ t, generateAll 3 (init (new 5 4) 30 [⟨2 / 255, 3 / 255⟩] 1) = Run.done t ∧
      isComplete t = true ∧ t.wholeSystem.length = 4 :=
  generateAll_terminates 5 4 30 [⟨2 / 255, 3 / 255⟩] 1 (by decide) (by decide) 3 (by decide)

/-- C6: for a row width `w ≥ 1` and `injectionPoints` at most the number of
pairs, `init` followed by any number `n` of `generate` steps does not throw and
leaves `n + 1` recorded rows, each of length exactly `w`, and a working row of
length `w`; and `injectSeed` on a row of length `w` leaves its length at `w`
(the write lands inside the row or on no element at all). Holds for every rule
and all pair coordinates. -/
theorem history_rows_length (w h rule : Nat) (inj : List Pair) (P : Nat) (hw : 1 ≤ w)
    (hP : P ≤ inj.length) (n : Nat) :
    (∃ s, generateTimes n (init (new w h) rule inj P) = some s ∧
      s.wholeSystem.length = n + 1 ∧ (∀ row ∈ s.wholeSystem, row.length = w) ∧
      s.cells.length = w) ∧
    (∀ s t : CellularAutomata, s.width = w → s.cells.length = w → injectSeed s = some t →
      t.cells.length = w) := by
  constructor
  · obtain ⟨s, hs, hinv, hgen⟩ := generateTimes_inv w h rule inj P hP n
    exact ⟨s, hs, by rw [hinv.hist_len, hgen], hinv.rows_len hw, hinv.cells_len hw⟩
  · intro s t hwd hlen hinj
    unfold injectSeed at hinj
    cases hp : s.injection.get? s.injectionCounter with
    | none => rw [hp] at hinj; cases hinj
    | some p =>
      simp only [hp, Option.some.injEq] at hinj
      rw [← hinj, hwd]
      exact assignCell_jsRem_length s.cells _ w (some 1) hw hlen

/-- Witness for C6: rule 30, five columns, two pairs, three steps. -/
theorem history_rows_length_witness :
    (∃ s, generateTimes 3 (init (new 5 4) 30 [⟨2 / 255, 3 / 255⟩, ⟨1 / 255, 0⟩] 2) = some s ∧
      s.wholeSystem.length = 3 + 1 ∧ (∀ row ∈ s.wholeSystem, row.length = 5) ∧
      s.cells.length = 5) ∧
    (∀ s t : CellularAutomata, s.width = 5 → s.cells.length = 5 → injectSeed s = some t →
      t.cells.length = 5) :=
  history_rows_length 5 4 30 [⟨2 / 255, 3 / 255⟩, ⟨1 / 255, 0⟩] 2 (by decide) (by decide) 3

/-! ### The injection counter in a run -/

theorem run_counter_budget (w h rule : Nat) (inj : List Pair) (P : Nat) (s : CellularAutomata)
    (hs : Inv w h rule inj P s) :
    s.injectionCounter + (List.range P).countP (fires inj h s.generation) ≤ inj.length := by
  have hsplit := countP_pendingAt inj h s.generation (List.range P)
  have := hs.budget
  have := hs.points_le
  omega

/-! ### Claims about injections -/

/-- C7 at the input width 6, height 6, rule 30, `injectionPoints = 1` and the
one pair `x = 1/128`, `y = 2^-31`, right after `init` (generation 1, counter 0,
working row `0 0 0 1 0 0`). In the claim's terms exactly one trigger fires,
`floor(x * 255) mod 6 = 1`, and the target column is
`floor(y * 255) mod 6 = 0`. The program computes `parseInt(y * 255, 10) = 1`,
the first digit of the string `1.1874362826347351e-7`, sets cell 1 and records
for generation 1 the rule applied to `0 1 0 1 0 0`, which is `1 1 0 1 1 0`;
the rule applied to the row with cell 0 set would be `1 1 1 1 1 1`. -/
theorem single_injection_column_slip :
    smallColumnState.generation = 1 ∧ smallColumnState.injectionPoints = 1 ∧
    smallColumnState.injectionCounter = 0 ∧
    smallColumnState.injection.get? 0 = some ⟨1 / 128, 1 / 2 ^ 31⟩ ∧
    smallColumnState.cells = [some 0, some 0, some 0, some 1, some 0, some 0] ∧
    triggerOf ⟨1 / 128, 1 / 2 ^ 31⟩ 6 = 1 ∧
    columnOf ⟨1 / 128, 1 / 2 ^ 31⟩ 6 = 0 ∧
    parseIntNum (mul64 (1 / 2 ^ 31) 255) = 1 ∧
    (generate smallColumnState).map (fun t => t.wholeSystem.get? 1)
      = some (some (nextRow smallColumnState.rules (smallColumnState.cells.set 1 (some 1)))) ∧
    nextRow smallColumnState.rules (smallColumnState.cells.set 1 (some 1))
      = [some 1, some 1, some 0, some 1, some 1, some 0] ∧
    nextRow smallColumnState.rules
        (smallColumnState.cells.set (columnOf ⟨1 / 128, 1 / 2 ^ 31⟩ 6) (some 1))
      = [some 1, some 1, some 1, some 1, some 1, some 1] := by
  refine ⟨by decide!, by decide!, by decide!, by decide!, by decide!, by decide!, by decide!,
    by decide!, by decide!, by decide!, by decide!⟩

/-- C8 at the input width 6, height 6, `injectionPoints = 1` and the one pair
`x = 2^-31`, `y = 0`, right after `init` (generation 1, counter 0). In the
claim's terms no trigger equals the generation (`floor(x * 255) mod 6 = 0`), so
`m = 0`, the row stays as it is and the counter stays 0. The program computes
`parseInt(x * 255, 10) = 1`, the first digit of `1.1874362826347351e-7`, so
`checkInjection` performs one injection: the counter leaves at 1 and cell 0 is
set. -/
theorem checkInjection_count_slip :
    smallTriggerState.generation = 1 ∧ smallTriggerState.injectionPoints = 1 ∧
    smallTriggerState.injectionCounter = 0 ∧
    smallTriggerState.cells = [some 0, some 0, some 0, some 1, some 0, some 0] ∧
    triggerCount [⟨1 / 2 ^ 31, 0⟩] 1 6 1 = 0 ∧
    injectColumns [⟨1 / 2 ^ 31, 0⟩] 6 0 0 smallTriggerState.cells = smallTriggerState.cells ∧
    parseIntNum (mul64 (1 / 2 ^ 31) 255) = 1 ∧
    (checkInjection smallTriggerState).map (fun t => t.injectionCounter) = some 1 ∧
    (checkInjection smallTriggerState).map (fun t => t.cells)
      = some [some 1, some 0, some 0, some 1, some 0, some 0] := by
  refine ⟨by decide!, by decide!, by decide!, by decide!, by decide!, by decide!, by decide!,
    by decide!, by decide!⟩

/-! ### Claims about the classifier -/

set_option maxRecDepth 1000000 in
theorem class_lists_cover : ∀ r, r < 256 → (r ∈ c1 ∨ r ∈ c2 ∨ r ∈ c3 ∨ r ∈ c4) := by
  decide!

set_option maxRecDepth 1000000 in
theorem class_lists_disjoint :
    (∀ r ∈ c1, r ∉ c2 ∧ r ∉ c3 ∧ r ∉ c4) ∧ (∀ r ∈ c2, r ∉ c3 ∧ r ∉ c4) ∧
      (∀ r ∈ c3, r ∉ c4) := by
  decide!

set_option maxRecDepth 1000000 in
theorem class_lists_nodup : c1.Nodup ∧ c2.Nodup ∧ c3.Nodup ∧ c4.Nodup := by
  decide!

set_option maxRecDepth 1000000 in
theorem class_lists_bound : ∀ r ∈ c1 ++ c2 ++ c3 ++ c4, r ≤ 255 := by
  decide!

theorem class_lists_length :
    c1.length = 16 ∧ c2.length = 158 ∧ c3.length = 70 ∧ c4.length = 12 :=
  ⟨rfl, rfl, rfl, rfl⟩

theorem contains_iff_mem (l : List Nat) (r : Nat) : l.contains r = true ↔ r ∈ l :=
  List.elem_iff

/-- C9: every integer in `[0, 255]` belongs to one of the four lists of
`findClass` and to no two of them, no list has a repeated entry, no entry
exceeds 255, the four lengths sum to 256, and `findClass` returns a class for
every rule in `[0, 255]`. -/
theorem findClass_partition :
    (∀ r, r < 256 →
      (r ∈ c1 ∨ r ∈ c2 ∨ r ∈ c3 ∨ r ∈ c4) ∧
      ¬ (r ∈ c1 ∧ r ∈ c2) ∧ ¬ (r ∈ c1 ∧ r ∈ c3) ∧ ¬ (r ∈ c1 ∧ r ∈ c4) ∧
      ¬ (r ∈ c2 ∧ r ∈ c3) ∧ ¬ (r ∈ c2 ∧ r ∈ c4) ∧ ¬ (r ∈ c3 ∧ r ∈ c4)) ∧
    (c1.Nodup ∧ c2.Nodup ∧ c3.Nodup ∧ c4.Nodup) ∧
    (∀ r ∈ c1 ++ c2 ++ c3 ++ c4, r ≤ 255) ∧
    c1.length + c2.length + c3.length + c4.length = 256 ∧
    (∀ r, r < 256 → ∃ name pct, findClass r = some (name, pct)) := by
  obtain ⟨d1, d2, d3⟩ := class_lists_disjoint
  obtain ⟨l1, l2, l3, l4⟩ := class_lists_length
  refine ⟨fun r hr => ⟨class_lists_cover r hr, ?_, ?_, ?_, ?_, ?_, ?_⟩, class_lists_nodup,
    class_lists_bound, by rw [l1, l2, l3, l4], ?_⟩
  · exact fun h => (d1 r h.1).1 h.2
  · exact fun h => (d1 r h.1).2.1 h.2
  · exact fun h => (d1 r h.1).2.2 h.2
  · exact fun h => (d2 r h.1).1 h.2
  · exact fun h => (d2 r h.1).2 h.2
  · exact fun h => d3 r h.1 h.2
  · intro r hr
    unfold findClass
    by_cases h1 : r ∈ c1
    · exact ⟨_, _, by rw [if_pos ((contains_iff_mem _ _).mpr h1)]⟩
    · rw [if_neg (fun h => h1 ((contains_iff_mem _ _).mp h))]
      by_cases h2 : r ∈ c2
      · exact ⟨_, _, by rw [if_pos ((contains_iff_mem _ _).mpr h2)]⟩
      · rw [if_neg (fun h => h2 ((contains_iff_mem _ _).mp h))]
        by_cases h3 : r ∈ c3
        · exact ⟨_, _, by rw [if_pos ((contains_iff_mem _ _).mpr h3)]⟩
        · rw [if_neg (fun h => h3 ((contains_iff_mem _ _).mp h))]
          have h4 : r ∈ c4 := by
            rcases class_lists_cover r hr with h | h | h | h
            · exact absurd h h1
            · exact absurd h h2
            · exact absurd h h3
            · exact h
          exact ⟨_, _, by rw [if_pos ((contains_iff_mem _ _).mpr h4)]⟩

/-- Witness for C9: rule 30 is in the fourth list only and is classified. -/
theorem findClass_partition_witness :
    (30 ∈ c1 ∨ 30 ∈ c2 ∨ 30 ∈ c3 ∨ 30 ∈ c4) ∧ ∃ name pct, findClass 30 = some (name, pct) :=
  ⟨(findClass_partition.1 30 (by decide)).1, findClass_partition.2.2.2.2 30 (by decide)⟩

/-- C10 as stated fails: the list for `Periodic` does not have 154 members. -/
theorem class_sizes_as_stated_false :
    ¬ (c1.toFinset.card = 16 ∧ c2.toFinset.card = 154 ∧ c3.toFinset.card = 70 ∧
      c4.toFinset.card = 12) := by
  intro h
  have h2 : c2.toFinset.card = c2.length := List.toFinset_card_of_nodup class_lists_nodup.2.1
  rw [h2, class_lists_length.2.1] at h
  exact absurd h.2.1 (by decide)

/-- C10, amended: the four membership sets of `findClass` have 16 (Emptied),
158 (Periodic), 70 (Structured) and 12 (Chaotic) members, 256 in all; the
lists have the same lengths. -/
theorem class_sizes :
    (c1.toFinset.card = 16 ∧ c2.toFinset.card = 158 ∧ c3.toFinset.card = 70 ∧
      c4.toFinset.card = 12) ∧
    (c1.length = 16 ∧ c2.length = 158 ∧ c3.length = 70 ∧ c4.length = 12) ∧
    c1.toFinset.card + c2.toFinset.card + c3.toFinset.card + c4.toFinset.card = 256 := by
  obtain ⟨n1, n2, n3, n4⟩ := class_lists_nodup
  obtain ⟨l1, l2, l3, l4⟩ := class_lists_length
  rw [List.toFinset_card_of_nodup n1, List.toFinset_card_of_nodup n2,
    List.toFinset_card_of_nodup n3, List.toFinset_card_of_nodup n4, l1, l2, l3, l4]
  exact ⟨⟨rfl, rfl, rfl, rfl⟩, ⟨rfl, rfl, rfl, rfl⟩, rfl⟩

/-! ### Claims about the attributes -/

theorem findPercentage_values :
    findPercentage c1 = 6 ∧ findPercentage c2 = 62 ∧ findPercentage c3 = 27 ∧
      findPercentage c4 = 5 := by
  decide!

theorem findPercentage_eq_round (v : List Nat) :
    findPercentage v = round ((v.length : ℚ) / 255 * 100) :=
  (round_eq _).symm

theorem findClass_cases (r : Nat) (hr : r < 256) :
    (r ∈ c1 ∧ findClass r = some ("Emptied", findPercentage c1)) ∨
      (r ∈ c2 ∧ findClass r = some ("Periodic", findPercentage c2)) ∨
      (r ∈ c3 ∧ findClass r = some ("Structured", findPercentage c3)) ∨
      (r ∈ c4 ∧ findClass r = some ("Chaotic", findPercentage c4)) := by
  unfold findClass
  by_cases h1 : r ∈ c1
  · exact Or.inl ⟨h1, by rw [if_pos ((contains_iff_mem _ _).mpr h1)]⟩
  · rw [if_neg (fun h => h1 ((contains_iff_mem _ _).mp h))]
    by_cases h2 : r ∈ c2
    · exact Or.inr (Or.inl ⟨h2, by rw [if_pos ((contains_iff_mem _ _).mpr h2)]⟩)
    · rw [if_neg (fun h => h2 ((contains_iff_mem _ _).mp h))]
      by_cases h3 : r ∈ c3
      · exact Or.inr (Or.inr (Or.inl ⟨h3, by rw [if_pos ((contains_iff_mem _ _).mpr h3)]⟩))
      · rw [if_neg (fun h => h3 ((contains_iff_mem _ _).mp h))]
        have h4 : r ∈ c4 := by
          rcases class_lists_cover r hr with h | h | h | h
          · exact absurd h h1
          · exact absurd h h2
          · exact absurd h h3
          · exact h
        exact Or.inr (Or.inr (Or.inr ⟨h4, by rw [if_pos ((contains_iff_mem _ _).mpr h4)]⟩))

/-- C11: for a rule `r ≤ 255`, `findClass` returns the name of the list that
holds `r` together with `round(n / 255 * 100)` where `n` is the length of that
list; this percentage lies in `[0, 100]`, and the attribute `Scarcity reward`
is 100 minus it. Rule 30 yields `Chaotic`, 5 and the reward 95. -/
theorem findClass_scarcity (r : Nat) (hr : r ≤ 255) :
    (∃ name members,
      (name, members) ∈
        [("Emptied", c1), ("Periodic", c2), ("Structured", c3), ("Chaotic", c4)] ∧
      r ∈ members ∧
      findClass r = some (name, findPercentage members) ∧
      findPercentage members = round ((members.length : ℚ) / 255 * 100) ∧
      0 ≤ findPercentage members ∧ findPercentage members ≤ 100 ∧
      scarcityReward (name, findPercentage members) = 100 - findPercentage members) ∧
    findClass 30 = some ("Chaotic", 5) ∧ scarcityReward ("Chaotic", 5) = 95 := by
  obtain ⟨p1, p2, p3, p4⟩ := findPercentage_values
  refine ⟨?_, ?_, rfl⟩
  · rcases findClass_cases r (by omega) with h | h | h | h
    · exact ⟨"Emptied", c1, by simp, h.1, h.2, findPercentage_eq_round c1,
        by rw [p1]; decide, by rw [p1]; decide, rfl⟩
    · exact ⟨"Periodic", c2, by simp, h.1, h.2, findPercentage_eq_round c2,
        by rw [p2]; decide, by rw [p2]; decide, rfl⟩
    · exact ⟨"Structured", c3, by simp, h.1, h.2, findPercentage_eq_round c3,
        by rw [p3]; decide, by rw [p3]; decide, rfl⟩
    · exact ⟨"Chaotic", c4, by simp, h.1, h.2, findPercentage_eq_round c4,
        by rw [p4]; decide, by rw [p4]; decide, rfl⟩
  · rcases findClass_cases 30 (by decide) with h | h | h | h
    · exact absurd h.1 (by decide)
    · exact absurd h.1 (by decide)
    · exact absurd h.1 (by decide)
    · rw [h.2, p4]

/-- Witness for C11: rule 110 is in the third list. -/
theorem findClass_scarcity_witness :
    ∃ name members,
      (name, members) ∈
        [("Emptied", c1), ("Periodic", c2), ("Structured", c3), ("Chaotic", c4)] ∧
      110 ∈ members ∧
      findClass 110 = some (name, findPercentage members) ∧
      findPercentage members = round ((members.length : ℚ) / 255 * 100) ∧
      0 ≤ findPercentage members ∧ findPercentage members ≤ 100 ∧
      scarcityReward (name, findPercentage members) = 100 - findPercentage members :=
  (findClass_scarcity 110 (by decide)).1

/-- C12: for every draw `d`, the symmetry attribute is `Mirrored` exactly when
`d ≥ 0.98` and `Normal` exactly when `d < 0.98` (so `0.98` gives `Mirrored` and
`0.9799999` gives `Normal`); the extra rarity boost, `findExtraRarity` of the
class name and the flag `d ≥ 0.98`, is 25 for `Periodic`, 50 for `Structured`,
75 for `Emptied` and 100 for `Chaotic` when the flag is set and 0 for every
name when it is not. -/
theorem symmetry_and_extra_rarity (d : ℚ) :
    (activeRarity d = true ↔ d ≥ 98 / 100) ∧
    (symmetry d = "Mirrored" ↔ d ≥ 98 / 100) ∧
    (symmetry d = "Normal" ↔ d < 98 / 100) ∧
    symmetry (98 / 100) = "Mirrored" ∧ symmetry (9799999 / 10000000) = "Normal" ∧
    findExtraRarity "Periodic" true = 25 ∧ findExtraRarity "Structured" true = 50 ∧
    findExtraRarity "Emptied" true = 75 ∧ findExtraRarity "Chaotic" true = 100 ∧
    (∀ caClass : String, findExtraRarity caClass false = 0) := by
  have hne : ("Mirrored" : String) ≠ "Normal" := by decide
  refine ⟨by simp [activeRarity], ?_, ?_, by decide!, by decide!, by decide, by decide,
    by decide, by decide, ?_⟩
  · unfold symmetry activeRarity
    by_cases h : d ≥ 98 / 100
    · simp [h]
    · simp [h, hne.symm]
  · unfold symmetry activeRarity
    by_cases h : d ≥ 98 / 100
    · simp [h, hne, not_lt.mpr h]
    · simp [h, lt_of_not_ge h]
  · intro caClass
    simp [findExtraRarity]

/-- Witness for C12: the draw 0.99 gives `Mirrored`. -/
theorem symmetry_and_extra_rarity_witness : symmetry (99 / 100) = "Mirrored" :=
  (symmetry_and_extra_rarity (99 / 100)).2.1.mpr (by norm_num)

/-- C13 as stated fails: with 5 rows the centre is 2 and the fold index of row 4
is 2, not 0. -/
theorem foldIndex_last_row_not_zero :
    center 5 = 2 ∧ foldIndex (center 5) 4 ≠ some 0 := by
  decide

/-- C13, amended: for a 5-row history the centre row is 2 and the fold index
`j >= c ? c - (j mod c) : j` of `displayMirrored` sends row 4 to 2, row 2 to 2
and row 0 to 0. -/
theorem foldIndex_five_rows :
    center 5 = 2 ∧ foldIndex (center 5) 4 = some 2 ∧ foldIndex (center 5) 2 = some 2 ∧
      foldIndex (center 5) 0 = some 0 := by
  decide

/-! ### The worked example of rule 204 -/

theorem generateAll_mono (fuel : Nat) (s t : CellularAutomata)
    (h : generateAll fuel s = Run.done t) (fuel2 : Nat) (hle : fuel ≤ fuel2) :
    generateAll fuel2 s = Run.done t := by
  induction fuel generalizing s fuel2 with
  | zero =>
    cases hc : isComplete s with
    | true =>
      simp only [generateAll, hc, if_true] at h
      cases fuel2 <;> simp only [generateAll, hc, if_true, h]
    | false => simp [generateAll, hc] at h
  | succ fuel ih =>
    obtain ⟨k, rfl⟩ : ∃ k, fuel2 = k + 1 := ⟨fuel2 - 1, by omega⟩
    cases hc : isComplete s with
    | true =>
      simp only [generateAll, hc, if_true] at h ⊢
      exact h
    | false =>
      cases hg : generate s with
      | none => simp [generateAll, hc, hg] at h
      | some u =>
        simp only [generateAll, hc, hg] at h ⊢
        exact ih u (by simpa using h) k (by omega)

/-- C14: for rule 204, row width 10, row height 5 and no injections,
`parseRule 204` is `11001100`, generation 0 is `[0,0,0,0,0,1,0,0,0,0]`, and
`generateAll` after `init` ends (for every fuel of at least 4) with exactly 5
recorded rows, each one the result of `nextRow` with the table of rule 204 on
the row before it and equal to generation 0; rule 204 maps every
neighbourhood of bits to its centre cell. -/
theorem rule_204_example :
    parseRule 204 = ['1', '1', '0', '0', '1', '1', '0', '0'] ∧
    (init (new 10 5) 204 [] 0).wholeSystem
      = [[some 0, some 0, some 0, some 0, some 0, some 1, some 0, some 0, some 0, some 0]] ∧
    (∀ fuel, 4 ≤ fuel → ∃ t, generateAll fuel (init (new 10 5) 204 [] 0) = Run.done t ∧
      t.wholeSystem.length = 5 ∧
      t.wholeSystem = List.replicate 5
        [some 0, some 0, some 0, some 0, some 0, some 1, some 0, some 0, some 0, some 0] ∧
      (∀ i, i < 4 → ∃ prev row, t.wholeSystem.get? i = some prev ∧
        t.wholeSystem.get? (i + 1) = some row ∧ row = nextRow (parseRule 204) prev)) ∧
    (∀ l, l ≤ 1 → ∀ c, c ≤ 1 → ∀ r, r ≤ 1 →
      executeRules (parseRule 204) (some l) (some c) (some r) = some c) := by
  refine ⟨by decide, by decide, ?_, by decide⟩
  intro fuel hfuel
  have h4 : ∃ t, generateAll 4 (init (new 10 5) 204 [] 0) = Run.done t ∧
      t.wholeSystem = List.replicate 5
        [some 0, some 0, some 0, some 0, some 0, some 1, some 0, some 0, some 0, some 0] :=
    ⟨_, rfl, by decide⟩
  obtain ⟨t, ht, hrows⟩ := h4
  refine ⟨t, generateAll_mono 4 _ t ht fuel hfuel, by rw [hrows]; rfl, hrows, ?_⟩
  intro i hi
  rw [hrows]
  interval_cases i <;> exact ⟨_, _, rfl, rfl, by decide⟩

/-- Witness for C14: the run with fuel 4. -/
theorem rule_204_example_witness :
    ∃ t, generateAll 4 (init (new 10 5) 204 [] 0) = Run.done t ∧
      t.wholeSystem.length = 5 :=
  let ⟨t, h1, h2, _⟩ := rule_204_example.2.2.1 4 (by decide)
  ⟨t, h1, h2⟩

/-! ### The row built for a real-valued width -/

theorem zeroLoop_eq (width : ℚ) (fuel i : Nat) (cells : List Cell) (hlen : cells.length = i)
    (hfuel : ⌈width⌉₊ - i ≤ fuel) :
    zeroLoop width fuel i cells
      = some (cells ++ List.replicate (⌈width⌉₊ - i) (some 0)) := by
  induction fuel generalizing i cells with
  | zero =>
    have hnot : ¬ ((i : ℚ) < width) := fun h => by
      have := Nat.lt_ceil.mpr h
      omega
    have h0 : ⌈width⌉₊ - i = 0 := by omega
    simp [zeroLoop, hnot, h0]
  | succ fuel ih =>
    by_cases hlt : (i : ℚ) < width
    · have hi : i < ⌈width⌉₊ := Nat.lt_ceil.mpr hlt
      have hstep : ⌈width⌉₊ - i = (⌈width⌉₊ - (i + 1)) + 1 := by omega
      simp only [zeroLoop, hlt, if_true]
      rw [arraySet_at_length cells i hlen, ih (i + 1) (cells ++ [some 0]) (by simp [hlen])
        (by omega), hstep, List.replicate_succ]
      simp
    · have h0 : ⌈width⌉₊ - i = 0 := by
        have : ¬ (i < ⌈width⌉₊) := fun h => hlt (Nat.lt_ceil.mp h)
        omega
      simp [zeroLoop, hlt, h0]

theorem startRow_eq (width : ℚ) (fuel : Nat) (hfuel : ⌈width⌉₊ ≤ fuel) :
    startRow width fuel
      = some (arraySet (List.replicate ⌈width⌉₊ (some 0)) (⌈width⌉₊ / 2) (some 1) none) := by
  unfold startRow
  rw [zeroLoop_eq width fuel 0 [] rfl (by omega)]
  simp

theorem finite64_eq (q W : ℚ) (h : finite64 q = some W) : W = toDouble q := by
  unfold finite64 at h
  split at h
  · exact (Option.some.inj h).symm
  · cases h

theorem constructorWidth_eq (width height scale W : ℚ)
    (h : constructorWidth width height scale = some W) :
    W = div64 (sub64 width (mul64 (mul64 width (1 / 4)) (div64 height width))) scale := by
  unfold constructorWidth at h
  split at h
  · cases h
  · cases h1 : finite64 (height / width) with
    | none => rw [h1] at h; cases h
    | some ratio =>
      cases h2 : finite64 (width * (1 / 4)) with
      | none => rw [h1, h2] at h; cases h
      | some quarter =>
        rw [h1, h2] at h
        simp only [Option.some_bind] at h
        cases h3 : finite64 (quarter * ratio) with
        | none => rw [h3] at h; cases h
        | some woffset =>
          rw [h3] at h
          simp only [Option.some_bind] at h
          cases h4 : finite64 (width - woffset) with
          | none => rw [h4] at h; cases h
          | some rest =>
            rw [h4] at h
            simp only [Option.some_bind] at h
            rw [finite64_eq _ _ h, finite64_eq _ _ h4, finite64_eq _ _ h3, finite64_eq _ _ h2,
              finite64_eq _ _ h1]
            rfl

theorem startRow_natCast (w h rule : Nat) (inj : List Pair) (P fuel : Nat) (hfuel : w ≤ fuel) :
    startRow (w : ℚ) fuel = some (init (new w h) rule inj P).cells := by
  rw [startRow_eq _ fuel (by rw [Nat.ceil_natCast]; exact hfuel), Nat.ceil_natCast]
  simp only [init, start, applyBlockInjection, setRule, new, foldl_arraySet_range,
    List.length_replicate]

/-- C15 as stated fails: for a canvas of 500 by 500 and scale 2 the constructor
leaves the width 187.5 and `start` builds 188 cells, while the floor is 187. -/
theorem start_row_count_not_floor :
    constructorWidth 500 500 2 = some (375 / 2) ∧
    (∃ row, startRow (375 / 2) 188 = some row ∧ row.length = 188) ∧
    ⌊(375 / 2 : ℚ)⌋₊ = 187 := by
  have hceil : ⌈(375 / 2 : ℚ)⌉₊ = 188 := by
    rw [Nat.ceil_eq_iff (by decide)]; norm_num
  have hfloor : ⌊(375 / 2 : ℚ)⌋₊ = 187 := by
    rw [Nat.floor_eq_iff (by norm_num)]; norm_num
  have hrow := startRow_eq (375 / 2 : ℚ) 188 (by rw [hceil])
  rw [hceil] at hrow
  refine ⟨by decide!, ⟨_, hrow, ?_⟩, hfloor⟩
  rw [arraySet_length, List.length_replicate]
  rfl

/-- C15, amended: whenever the constructor leaves a finite width `W`, which is
`(canvasWidth - widthOffset) / scale` with
`widthOffset = canvasWidth * 0.25 * (canvasHeight / canvasWidth)` and every
operation rounded to a double, the row built by `start` has `max(ceil(W), 1)`
cells: `ceil(W)`, the number of integers `i ≥ 0` below `W`, when `W` is
positive, and the single centre cell otherwise. It is `floor(W)` when `W` is a
whole number. -/
theorem start_row_count (canvasWidth canvasHeight scale W : ℚ)
    (hW : constructorWidth canvasWidth canvasHeight scale = some W) (fuel : Nat)
    (hfuel : ⌈W⌉₊ ≤ fuel) :
    W = div64 (sub64 canvasWidth
        (mul64 (mul64 canvasWidth (1 / 4)) (div64 canvasHeight canvasWidth))) scale ∧
    ∃ row, startRow W fuel = some row ∧
      row.length = max ⌈W⌉₊ 1 ∧
      (0 < W → row.length = ⌈W⌉₊) ∧
      (∀ n : Nat, W = (n : ℚ) → 1 ≤ n → row.length = ⌊W⌋₊) := by
  refine ⟨constructorWidth_eq _ _ _ _ hW, _, startRow_eq _ fuel hfuel, ?_, ?_, ?_⟩
  · rw [arraySet_length, List.length_replicate]
    omega
  · intro hpos
    have hc : 0 < ⌈W⌉₊ := Nat.ceil_pos.mpr hpos
    rw [arraySet_length, List.length_replicate]
    omega
  · intro n hn hn1
    rw [arraySet_length, List.length_replicate, hn, Nat.ceil_natCast, Nat.floor_natCast]
    omega

/-- Witness for C15: a canvas of 22 by 60 with scale 1. The offset rounds to
`15 - 2^-49`, the width to `7 + 2^-49`, and the row has 8 cells. -/
theorem start_row_count_witness :
    constructorWidth 22 60 1 = some (3940649673949185 / 562949953421312) ∧
    ⌈(3940649673949185 / 562949953421312 : ℚ)⌉₊ = 8 ∧
    (3940649673949185 / 562949953421312 : ℚ) = div64 (sub64 22
        (mul64 (mul64 22 (1 / 4)) (div64 60 22))) 1 ∧
    ∃ row, startRow (3940649673949185 / 562949953421312) 8 = some row ∧
      row.length = max ⌈(3940649673949185 / 562949953421312 : ℚ)⌉₊ 1 ∧
      ((0 : ℚ) < 3940649673949185 / 562949953421312 →
        row.length = ⌈(3940649673949185 / 562949953421312 : ℚ)⌉₊) ∧
      (∀ n : Nat, (3940649673949185 / 562949953421312 : ℚ) = (n : ℚ) → 1 ≤ n →
        row.length = ⌊(3940649673949185 / 562949953421312 : ℚ)⌋₊) :=
  ⟨by decide!, by decide!,
    start_row_count 22 60 1 (3940649673949185 / 562949953421312) (by decide!) 8 (by decide!)⟩
/-! ### Scarcity and class size -/

theorem findClass_of_mem (name : String) (members : List Nat) (r : Nat)
    (hm : (name, members) ∈
      [("Emptied", c1), ("Periodic", c2), ("Structured", c3), ("Chaotic", c4)])
    (hr : r ∈ members) :
    findClass r = some (name, findPercentage members) := by
  obtain ⟨d1, d2, d3⟩ := class_lists_disjoint
  simp only [List.mem_cons, Prod.mk.injEq, List.mem_singleton, List.not_mem_nil,
    or_false] at hm
  have hb : r < 256 := by
    have : r ≤ 255 := by
      apply class_lists_bound
      simp only [List.mem_append]
      rcases hm with ⟨_, rfl⟩ | ⟨_, rfl⟩ | ⟨_, rfl⟩ | ⟨_, rfl⟩
      · exact Or.inl (Or.inl (Or.inl hr))
      · exact Or.inl (Or.inl (Or.inr hr))
      · exact Or.inl (Or.inr hr)
      · exact Or.inr hr
    omega
  rcases hm with ⟨rfl, rfl⟩ | ⟨rfl, rfl⟩ | ⟨rfl, rfl⟩ | ⟨rfl, rfl⟩ <;>
    rcases findClass_cases r hb with h | h | h | h
  · exact h.2
  · exact absurd h.1 (d1 r hr).1
  · exact absurd h.1 (d1 r hr).2.1
  · exact absurd h.1 (d1 r hr).2.2
  · exact absurd hr (d1 r h.1).1
  · exact h.2
  · exact absurd h.1 (d2 r hr).1
  · exact absurd h.1 (d2 r hr).2
  · exact absurd hr (d1 r h.1).2.1
  · exact absurd hr (d2 r h.1).1
  · exact h.2
  · exact absurd h.1 (d3 r hr)
  · exact absurd hr (d1 r h.1).2.2
  · exact absurd hr (d2 r h.1).2
  · exact absurd hr (d3 r h.1)
  · exact h.2

/-- C18: for rules `a` and `b` (members of the lists of `findClass`, hence in
`[0, 255]`), if the list that holds `a` has strictly fewer members than the
list that holds `b`, then the scarcity reward `100 - scarcityPercent` reported
for `a` is strictly greater than the one reported for `b`. -/
theorem rarer_class_higher_reward (a b : Nat) (na nb : String) (la lb : List Nat)
    (hla : (na, la) ∈ [("Emptied", c1), ("Periodic", c2), ("Structured", c3), ("Chaotic", c4)])
    (hlb : (nb, lb) ∈ [("Emptied", c1), ("Periodic", c2), ("Structured", c3), ("Chaotic", c4)])
    (hma : a ∈ la) (hmb : b ∈ lb) (hlt : la.length < lb.length) :
    findClass a = some (na, findPercentage la) ∧
    findClass b = some (nb, findPercentage lb) ∧
    scarcityReward (nb, findPercentage lb) < scarcityReward (na, findPercentage la) := by
  refine ⟨findClass_of_mem na la a hla hma, findClass_of_mem nb lb b hlb hmb, ?_⟩
  obtain ⟨p1, p2, p3, p4⟩ := findPercentage_values
  obtain ⟨l1, l2, l3, l4⟩ := class_lists_length
  simp only [List.mem_cons, Prod.mk.injEq, List.mem_singleton, List.not_mem_nil,
    or_false] at hla hlb
  rcases hla with ⟨rfl, rfl⟩ | ⟨rfl, rfl⟩ | ⟨rfl, rfl⟩ | ⟨rfl, rfl⟩ <;>
    rcases hlb with ⟨rfl, rfl⟩ | ⟨rfl, rfl⟩ | ⟨rfl, rfl⟩ | ⟨rfl, rfl⟩ <;>
    simp only [l1, l2, l3, l4, scarcityReward, p1, p2, p3, p4] at hlt ⊢ <;>
    omega

/-- Witness for C18: rule 30 (12 members) against rule 204 (158 members). -/
theorem rarer_class_higher_reward_witness :
    findClass 30 = some ("Chaotic", findPercentage c4) ∧
    findClass 204 = some ("Periodic", findPercentage c2) ∧
    scarcityReward ("Periodic", findPercentage c2)
      < scarcityReward ("Chaotic", findPercentage c4) :=
  rarer_class_higher_reward 30 204 "Chaotic" "Periodic" c4 c2
    (by simp) (by simp) (by decide) (by decide!) (by decide!)

/-! ### What a step leaves untouched -/

theorem SameFrame.refl (s : CellularAutomata) : SameFrame s s :=
  ⟨rfl, rfl, rfl, rfl, rfl, rfl, rfl⟩

theorem SameFrame.trans {s t u : CellularAutomata} (h1 : SameFrame s t) (h2 : SameFrame t u) :
    SameFrame s u := by
  obtain ⟨a1, a2, a3, a4, a5, a6, a7⟩ := h1
  obtain ⟨b1, b2, b3, b4, b5, b6, b7⟩ := h2
  exact ⟨b1.trans a1, b2.trans a2, b3.trans a3, b4.trans a4, b5.trans a5, b6.trans a6,
    b7.trans a7⟩

theorem injectSeed_shape (s t : CellularAutomata) (h : injectSeed s = some t) :
    SameFrame s t ∧ ∃ a : Int, t.cells = assignCell s.cells (jsRem a s.width) (some 1) := by
  unfold injectSeed at h
  cases hp : s.injection.get? s.injectionCounter with
  | none => rw [hp] at h; cases h
  | some p =>
    simp only [hp, Option.some.injEq] at h
    subst h
    exact ⟨SameFrame.refl s, _, rfl⟩

theorem checkInjectionAt_shape (s t : CellularAutomata) (i : Nat)
    (h : checkInjectionAt s i = some t) :
    t = s ∨ injectSeed s = some t := by
  unfold checkInjectionAt at h
  cases hp : getInjectionPoint s i with
  | none => rw [hp] at h; cases h
  | some point =>
    simp only [hp] at h
    by_cases hf : point = some (s.generation : Int)
    · rw [if_pos hf] at h
      exact Or.inr h
    · rw [if_neg hf] at h
      exact Or.inl (Option.some.inj h).symm

/-- A property of the working row that every single injection keeps is kept by
the whole loop of `checkInjection`, which also keeps the frame. -/
theorem foldlM_checkInjectionAt_keeps (Q : CellularAutomata → Prop)
    (hQ : ∀ s t, Q s → injectSeed s = some t → Q t) (is : List Nat)
    (s u : CellularAutomata) (h : is.foldlM checkInjectionAt s = some u) (hs : Q s) :
    SameFrame s u ∧ Q u := by
  induction is generalizing s with
  | nil =>
    simp only [List.foldlM_nil] at h
    cases h
    exact ⟨SameFrame.refl _, hs⟩
  | cons i is ih =>
    rw [List.foldlM_cons] at h
    cases hstep : checkInjectionAt s i with
    | none => rw [hstep] at h; cases h
    | some t =>
      rw [hstep] at h
      rcases checkInjectionAt_shape s t i hstep with heq | hinj
      · rw [heq] at h
        exact ih s h hs
      · obtain ⟨hf, hq⟩ := ih t h (hQ s t hs hinj)
        exact ⟨SameFrame.trans (injectSeed_shape s t hinj).1 hf, hq⟩

theorem checkInjection_frame (s u : CellularAutomata) (h : checkInjection s = some u) :
    SameFrame s u :=
  (foldlM_checkInjectionAt_keeps (fun _ => True) (fun _ _ _ _ => trivial) _ s u h trivial).1

theorem generate_shape (s t : CellularAutomata) (h : generate s = some t) :
    ∃ u, checkInjection s = some u ∧ SameFrame s u ∧
      t.cells = nextRow s.rules u.cells ∧
      t.wholeSystem = arraySet s.wholeSystem s.generation t.cells [] ∧
      t.generation = s.generation + 1 ∧ t.rules = s.rules ∧ t.width = s.width ∧
      t.height = s.height := by
  unfold generate at h
  cases hchk : checkInjection s with
  | none => rw [hchk] at h; cases h
  | some u =>
    simp only [hchk, Option.some.injEq] at h
    obtain ⟨f1, f2, f3, f4, f5, f6, f7⟩ := checkInjection_frame s u hchk
    subst h
    exact ⟨u, rfl, ⟨f1, f2, f3, f4, f5, f6, f7⟩, by rw [f1], by rw [f7, f2], by rw [f2],
      f1, f3, f4⟩

/-- One step of a run: the invariant is kept and the new row is appended. -/
theorem generate_step (w h rule : Nat) (inj : List Pair) (P : Nat) (s : CellularAutomata)
    (hs : Inv w h rule inj P s) :
    ∃ u t, checkInjection s = some u ∧ SameFrame s u ∧ generate s = some t ∧
      Inv w h rule inj P t ∧ t.generation = s.generation + 1 ∧
      t.cells = nextRow s.rules u.cells ∧
      t.wholeSystem = s.wholeSystem ++ [t.cells] := by
  obtain ⟨t, ht, htinv, htgen⟩ := generate_inv w h rule inj P s hs
  obtain ⟨u, hu, hf, hcells, hws, _, _, _, _⟩ := generate_shape s t ht
  refine ⟨u, t, hu, hf, ht, htinv, htgen, hcells, ?_⟩
  rw [hws, arraySet_at_length _ _ hs.hist_len]

theorem generateAll_of_complete (fuel : Nat) (s : CellularAutomata)
    (h : isComplete s = true) : generateAll fuel s = Run.done s := by
  cases fuel <;> simp [generateAll, h]

/-- Every run keeps generation 0 as its first recorded row. -/
theorem generateTimes_first_row (w h rule : Nat) (inj : List Pair) (P : Nat)
    (hP : P ≤ inj.length) (n : Nat) :
    ∃ s, generateTimes n (init (new w h) rule inj P) = some s ∧ Inv w h rule inj P s ∧
      s.generation = n + 1 ∧
      s.wholeSystem.get? 0 = (init (new w h) rule inj P).wholeSystem.get? 0 := by
  induction n with
  | zero => exact ⟨_, rfl, init_inv w h rule inj P hP, rfl, rfl⟩
  | succ n ih =>
    obtain ⟨s, hs, hinv, hgen, hrow⟩ := ih
    obtain ⟨u, t, _, _, ht, htinv, htgen, _, hws⟩ := generate_step w h rule inj P s hinv
    refine ⟨t, ?_, htinv, by omega, ?_⟩
    · rw [generateTimes_succ, hs]; exact ht
    · have hpos : 0 < s.wholeSystem.length := by
        have := hinv.hist_len
        have := hinv.gen_pos
        omega
      rw [hws, List.get?_eq_getElem?, List.getElem?_append_left hpos, ← List.get?_eq_getElem?]
      exact hrow

/-! ### Claims about completion and the history -/

/-- C16 as stated fails: after the four steps of the rule-204 run of height 5 the
simulation is complete, and one more `generate` does not fail; it returns a
state with a sixth row and the generation counter 6. -/
theorem generate_after_complete_succeeds :
    ∃ s t, generateTimes 4 (init (new 10 5) 204 [] 0) = some s ∧ isComplete s = true ∧
      s.generation = 5 ∧ s.wholeSystem.length = 5 ∧
      generate s = some t ∧ t.generation = 6 ∧ t.wholeSystem.length = 6 :=
  ⟨_, _, rfl, rfl, rfl, rfl, rfl, rfl, rfl⟩

/-- C16, amended: once a run is complete (`generation ≥ height`), `generateAll`
makes no further step and returns the state as it is; `generate` itself has no
completion check: a further call does not fail, it appends one more row to the
history and adds 1 to the generation counter. -/
theorem generate_after_complete (w h rule : Nat) (inj : List Pair) (P : Nat)
    (hP : P ≤ inj.length) (n : Nat) (hn : h ≤ n + 1) :
    ∃ s, generateTimes n (init (new w h) rule inj P) = some s ∧ isComplete s = true ∧
      (∀ fuel, generateAll fuel s = Run.done s) ∧
      ∃ t, generate s = some t ∧ t.generation = s.generation + 1 ∧
        t.wholeSystem = s.wholeSystem ++ [t.cells] ∧
        t.wholeSystem.length = s.wholeSystem.length + 1 := by
  obtain ⟨s, hs, hinv, hgen⟩ := generateTimes_inv w h rule inj P hP n
  have hc : isComplete s = true := by
    simp only [isComplete, hinv.height_eq, hgen, decide_eq_true_eq]
    exact hn
  obtain ⟨u, t, _, _, ht, _, htgen, _, hws⟩ := generate_step w h rule inj P s hinv
  exact ⟨s, hs, hc, fun fuel => generateAll_of_complete fuel s hc, t, ht, htgen, hws,
    by rw [hws]; simp⟩

/-- Witness for C16: the rule-204 run of height 5 after four steps. -/
theorem generate_after_complete_witness :
    ∃ s, generateTimes 4 (init (new 10 5) 204 [] 0) = some s ∧ isComplete s = true ∧
      (∀ fuel, generateAll fuel s = Run.done s) ∧
      ∃ t, generate s = some t ∧ t.generation = s.generation + 1 ∧
        t.wholeSystem = s.wholeSystem ++ [t.cells] ∧
        t.wholeSystem.length = s.wholeSystem.length + 1 :=
  generate_after_complete 10 5 204 [] 0 (by decide) 4 (by decide)

/-- C17: in a run (`init`, then any number `n` of `generate` steps, with
`injectionPoints` at most the number of pairs) the next `generate` step succeeds
and its history is the old history with exactly one row added at the end, so
every row recorded before is unchanged; and neither `injectSeed` nor
`checkInjection` touches the history: injections alter the working row only. -/
theorem history_append_only (w h rule : Nat) (inj : List Pair) (P : Nat)
    (hP : P ≤ inj.length) (n : Nat) :
    (∃ s t, generateTimes n (init (new w h) rule inj P) = some s ∧ generate s = some t ∧
      t.wholeSystem = s.wholeSystem ++ [t.cells] ∧
      t.wholeSystem.length = s.wholeSystem.length + 1 ∧
      ∀ i, i < s.wholeSystem.length → t.wholeSystem.get? i = s.wholeSystem.get? i) ∧
    (∀ s t : CellularAutomata, injectSeed s = some t → t.wholeSystem = s.wholeSystem) ∧
    (∀ s t : CellularAutomata, checkInjection s = some t → t.wholeSystem = s.wholeSystem) := by
  refine ⟨?_, fun s t hst => (injectSeed_shape s t hst).1.2.2.2.2.2.2,
    fun s t hst => (checkInjection_frame s t hst).2.2.2.2.2.2⟩
  obtain ⟨s, hs, hinv, _⟩ := generateTimes_inv w h rule inj P hP n
  obtain ⟨u, t, _, _, ht, _, _, _, hws⟩ := generate_step w h rule inj P s hinv
  refine ⟨s, t, hs, ht, hws, by rw [hws]; simp, ?_⟩
  intro i hi
  rw [hws, List.get?_eq_getElem?, List.get?_eq_getElem?, List.getElem?_append_left hi]

/-- Witness for C17: a run of rule 30 with two pairs, after one step. -/
theorem history_append_only_witness :
    (∃ s t, generateTimes 1 (init (new 5 4) 30 [⟨2 / 255, 3 / 255⟩, ⟨1 / 255, 0⟩] 2) = some s ∧
      generate s = some t ∧
      t.wholeSystem = s.wholeSystem ++ [t.cells] ∧
      t.wholeSystem.length = s.wholeSystem.length + 1 ∧
      ∀ i, i < s.wholeSystem.length → t.wholeSystem.get? i = s.wholeSystem.get? i) ∧
    (∀ s t : CellularAutomata, injectSeed s = some t → t.wholeSystem = s.wholeSystem) ∧
    (∀ s t : CellularAutomata, checkInjection s = some t → t.wholeSystem = s.wholeSystem) :=
  history_append_only 5 4 30 [⟨2 / 255, 3 / 255⟩, ⟨1 / 255, 0⟩] 2 (by decide) 1

/-- C19 at the input width 6, height 6, rule 30, `injectionPoints = 1` and the
one pair `x = 2^-31`, `y = 0`. The trigger in the claim's terms is
`floor(x * 255) mod 6 = 0`, so the pair should never fire. The program computes
`parseInt(x * 255, 10) % 6 = 1`, the first digit of `1.1874362826347351e-7`,
and the pair fires in the first `generate` step, at generation 1: the counter
goes to 1, cell 0 is set and the row recorded for generation 1 is the rule
applied to `1 0 0 1 0 0`, not to the start row. -/
theorem trigger_zero_pair_fires :
    triggerOf ⟨1 / 2 ^ 31, 0⟩ 6 = 0 ∧
    smallTriggerState.generation = 1 ∧
    smallTriggerState.injection.get? 0 = some ⟨1 / 2 ^ 31, 0⟩ ∧
    getInjectionPoint smallTriggerState 0 = some (some 1) ∧
    (checkInjectionAt smallTriggerState 0).map (fun t => t.injectionCounter) = some 1 ∧
    (checkInjectionAt smallTriggerState 0).map (fun t => t.cells)
      = some [some 1, some 0, some 0, some 1, some 0, some 0] ∧
    (generate smallTriggerState).map (fun t => t.wholeSystem)
      = some [[some 0, some 0, some 0, some 1, some 0, some 0],
          nextRow smallTriggerState.rules [some 1, some 0, some 0, some 1, some 0, some 0]] ∧
    nextRow smallTriggerState.rules [some 1, some 0, some 0, some 1, some 0, some 0]
      ≠ nextRow smallTriggerState.rules [some 0, some 0, some 0, some 1, some 0, some 0] := by
  refine ⟨by decide!, by decide!, by decide!, by decide!, by decide!, by decide!, by decide!,
    by decide!⟩

/-! ### Cells stay binary -/

theorem binary_getD (cells : List Cell) (hb : Binary cells) (k : Nat) (hk : k < cells.length) :
    ∃ b, b ≤ 1 ∧ cells.getD k none = some b := by
  have hmem : cells.getD k none ∈ cells := by
    rw [List.getD_eq_getElem cells none hk]
    exact List.getElem_mem hk
  rcases hb _ hmem with h | h
  · exact ⟨0, by omega, h⟩
  · exact ⟨1, by omega, h⟩

theorem binary_set (cells : List Cell) (hb : Binary cells) (k : Nat) :
    Binary (cells.set k (some 1)) := by
  intro c hc
  rcases List.mem_or_eq_of_mem_set hc with h | h
  · exact hb c h
  · exact Or.inr h

theorem binary_assignCell_jsRem (cells : List Cell) (a : Int) (w : Nat) (hb : Binary cells)
    (hlen : w = 0 ∨ cells.length = w) :
    Binary (assignCell cells (jsRem a w) (some 1)) ∧
      (assignCell cells (jsRem a w) (some 1)).length = cells.length := by
  rcases Nat.eq_zero_or_pos w with h0 | hpos
  · subst h0
    simp only [jsRem, Nat.cast_zero, if_true, assignCell]
    exact ⟨hb, trivial⟩
  · have hl : cells.length = w := by
      rcases hlen with h | h
      · omega
      · exact h
    have hw0 : (w : Int) ≠ 0 := by omega
    have hlt : Int.tmod a w < w := Int.tmod_lt_of_pos a (by omega)
    simp only [jsRem, hw0, if_false]
    cases hk : Int.tmod a w with
    | ofNat k =>
      rw [hk] at hlt
      have hkw : k < cells.length := by
        rw [hl]
        simpa using hlt
      simp only [assignCell, arraySet_of_lt _ _ _ _ hkw, List.length_set]
      exact ⟨binary_set cells hb k, trivial⟩
    | negSucc k => exact ⟨hb, rfl⟩

theorem checkInjection_binary (s u : CellularAutomata) (h : checkInjection s = some u)
    (hb : Binary s.cells) (hlen : s.width = 0 ∨ s.cells.length = s.width) :
    SameFrame s u ∧ Binary u.cells ∧ u.cells.length = s.cells.length := by
  have key := foldlM_checkInjectionAt_keeps
    (fun t => t.width = s.width ∧ Binary t.cells ∧ t.cells.length = s.cells.length)
    (fun a b ha hab => by
      obtain ⟨hf, x, hx⟩ := injectSeed_shape a b hab
      obtain ⟨ha1, ha2, ha3⟩ := ha
      have hl : a.width = 0 ∨ a.cells.length = a.width := by
        rw [ha1, ha3]; exact hlen
      obtain ⟨hb1, hb2⟩ := binary_assignCell_jsRem a.cells x a.width ha2 hl
      rw [← hx] at hb1 hb2
      exact ⟨hf.2.2.1.trans ha1, hb1, hb2.trans ha3⟩)
    _ s u h ⟨rfl, hb, rfl⟩
  exact ⟨key.1, key.2.2.1, key.2.2.2⟩

theorem parseInt_bits :
    ∀ l, l < 2 → ∀ c, c < 2 → ∀ r, r < 2 →
      parseInt (str (some l) ++ str (some c) ++ str (some r)) 2 = some (4 * l + 2 * c + r) := by
  decide

/-- The three cells `generate` reads for column `i` of a binary row are bits. -/
theorem neighbourhood_bits (cells : List Cell) (hb : Binary cells) (i : Nat)
    (hi : i < cells.length) :
    ∃ l c r, l ≤ 1 ∧ c ≤ 1 ∧ r ≤ 1 ∧
      cellAt cells (modulo ((i : Int) - 1) cells.length) = some l ∧
      cellAt cells (some (i : Int)) = some c ∧
      cellAt cells (modulo ((i : Int) + 1) cells.length) = some r := by
  have hpos : 0 < cells.length := by omega
  have hne : ((cells.length : Nat) : Int) ≠ 0 := by omega
  have hposI : (0 : Int) < (cells.length : Int) := by omega
  have hL : (((i : Int) - 1) % (cells.length : Int)).toNat < cells.length := by
    have h1 := Int.emod_nonneg ((i : Int) - 1) hne
    have h2 := Int.emod_lt_of_pos ((i : Int) - 1) hposI
    omega
  have hR : (((i : Int) + 1) % (cells.length : Int)).toNat < cells.length := by
    have h1 := Int.emod_nonneg ((i : Int) + 1) hne
    have h2 := Int.emod_lt_of_pos ((i : Int) + 1) hposI
    omega
  obtain ⟨l, hl, hl'⟩ := binary_getD cells hb _ hL
  obtain ⟨c, hc, hc'⟩ := binary_getD cells hb i hi
  obtain ⟨r, hr, hr'⟩ := binary_getD cells hb _ hR
  refine ⟨l, c, r, hl, hc, hr, ?_, ?_, ?_⟩
  · rw [modulo_eq_emod _ _ hpos, cellAt_of_nonneg _ _ (Int.emod_nonneg _ hne)]
    exact hl'
  · rw [cellAt_of_nonneg _ _ (Int.ofNat_nonneg i)]
    simpa using hc'
  · rw [modulo_eq_emod _ _ hpos, cellAt_of_nonneg _ _ (Int.emod_nonneg _ hne)]
    exact hr'

theorem nextRow_binary (rule : Nat) (hr : rule ≤ 255) (cells : List Cell)
    (hb : Binary cells) : Binary (nextRow (parseRule rule) cells) := by
  intro c hc
  obtain ⟨i, hi, hget⟩ := List.getElem_of_mem hc
  have hi' : i < cells.length := by rw [nextRow_length] at hi; exact hi
  obtain ⟨l, m, r, hl, hm, hr', hL, hM, hR⟩ := neighbourhood_bits cells hb i hi'
  have hval : c = executeRules (parseRule rule) (some l) (some m) (some r) := by
    rw [← hget]
    simp only [nextRow, List.getElem_map, List.getElem_range, hL, hM, hR]
  have hex := (executeRules_parseRule_all rule (by omega) l (by omega) m (by omega) r
    (by omega)).2
  rw [hval, hex]
  have hbit : rule / 2 ^ (4 * l + 2 * m + r) % 2 < 2 := Nat.mod_lt _ (by decide)
  interval_cases hv : rule / 2 ^ (4 * l + 2 * m + r) % 2
  · exact Or.inl rfl
  · exact Or.inr rfl

theorem init_binary (w h rule : Nat) (inj : List Pair) (P : Nat) :
    Binary (init (new w h) rule inj P).cells ∧
      ∀ row ∈ (init (new w h) rule inj P).wholeSystem, Binary row := by
  have hrow : Binary (arraySet (List.replicate w (some 0 : Cell)) (w / 2) (some 1) none) := by
    intro c hc
    unfold arraySet at hc
    split at hc
    · rcases List.mem_or_eq_of_mem_set hc with h | h
      · exact Or.inl (List.eq_of_mem_replicate h)
      · exact Or.inr h
    · simp only [List.mem_append, List.mem_singleton] at hc
      rcases hc with (h | h) | h
      · exact Or.inl (List.eq_of_mem_replicate h)
      · next hn =>
        have hw0 : w = 0 := by
          simp only [List.length_replicate] at hn
          omega
        subst hw0
        simp at h
      · exact Or.inr h
  constructor
  · simpa only [init, start, applyBlockInjection, setRule, new, foldl_arraySet_range,
      List.length_replicate] using hrow
  · intro row hrowmem
    simp only [init, start, applyBlockInjection, setRule, new, foldl_arraySet_range,
      List.length_replicate] at hrowmem
    have : row = arraySet (List.replicate w (some 0 : Cell)) (w / 2) (some 1) none := by
      simpa [arraySet] using hrowmem
    rw [this]
    exact hrow

theorem inv_width_cases (w h rule : Nat) (inj : List Pair) (P : Nat) (s : CellularAutomata)
    (hs : Inv w h rule inj P s) : s.width = 0 ∨ s.cells.length = s.width := by
  rw [hs.width_eq]
  rcases Nat.eq_zero_or_pos w with h0 | hpos
  · exact Or.inl h0
  · exact Or.inr (hs.cells_len hpos)

/-- Every run of a rule of `[0, 255]` keeps all cells binary. -/
theorem generateTimes_binary (w h rule : Nat) (inj : List Pair) (P : Nat) (hr : rule ≤ 255)
    (hP : P ≤ inj.length) (n : Nat) :
    ∃ s, generateTimes n (init (new w h) rule inj P) = some s ∧ Inv w h rule inj P s ∧
      Binary s.cells ∧ ∀ row ∈ s.wholeSystem, Binary row := by
  induction n with
  | zero =>
    exact ⟨_, rfl, init_inv w h rule inj P hP, (init_binary w h rule inj P).1,
      (init_binary w h rule inj P).2⟩
  | succ n ih =>
    obtain ⟨s, hs, hinv, hbc, hbr⟩ := ih
    obtain ⟨u, t, hu, _, ht, htinv, _, hcells, hws⟩ := generate_step w h rule inj P s hinv
    obtain ⟨_, hub, _⟩ := checkInjection_binary s u hu hbc (inv_width_cases w h rule inj P s hinv)
    have htb : Binary t.cells := by
      rw [hcells, hinv.rules_eq]
      exact nextRow_binary rule hr u.cells hub
    refine ⟨t, ?_, htinv, htb, ?_⟩
    · rw [generateTimes_succ, hs]; exact ht
    · intro row hrow
      rw [hws, List.mem_append, List.mem_singleton] at hrow
      rcases hrow with h | h
      · exact hbr row h
      · rw [h]; exact htb

/-! ### Claim about binary cells -/

/-- C20: in a run of a rule of `[0, 255]` (`init`, then any number `n` of
`generate` steps, `injectionPoints` at most the number of pairs), every cell of
every recorded row and of the working row is 0 or 1, also after the injections
of the next step; and for every column `i` the three cells that `executeRules`
receives are bits `l`, `c`, `r`, their rendering parses in base 2 to
`4*l + 2*c + r ≤ 7`, so the table index `7 - (4*l + 2*c + r)` lies in `[0, 7]`
and holds a character of the rule string. -/
theorem cells_binary (w h rule : Nat) (inj : List Pair) (P : Nat) (hr : rule ≤ 255)
    (hP : P ≤ inj.length) (n : Nat) :
    ∃ s u, generateTimes n (init (new w h) rule inj P) = some s ∧
      (∀ row ∈ s.wholeSystem, ∀ c ∈ row, c = some 0 ∨ c = some 1) ∧
      (∀ c ∈ s.cells, c = some 0 ∨ c = some 1) ∧
      checkInjection s = some u ∧
      (∀ c ∈ u.cells, c = some 0 ∨ c = some 1) ∧
      ∀ i, i < u.cells.length → ∃ l c r, l ≤ 1 ∧ c ≤ 1 ∧ r ≤ 1 ∧
        cellAt u.cells (modulo ((i : Int) - 1) u.cells.length) = some l ∧
        cellAt u.cells (some (i : Int)) = some c ∧
        cellAt u.cells (modulo ((i : Int) + 1) u.cells.length) = some r ∧
        parseInt (str (some l) ++ str (some c) ++ str (some r)) 2
          = some (4 * l + 2 * c + r) ∧
        (0 : Int) ≤ 7 - ((4 * l + 2 * c + r : Nat) : Int) ∧
        (7 : Int) - ((4 * l + 2 * c + r : Nat) : Int) ≤ 7 ∧
        ∃ ch, u.rules.get? (7 - (4 * l + 2 * c + r)) = some ch := by
  obtain ⟨s, hs, hinv, hbc, hbr⟩ := generateTimes_binary w h rule inj P hr hP n
  obtain ⟨u, t, hu, hf, _, _, _, _, _⟩ := generate_step w h rule inj P s hinv
  obtain ⟨_, hub, _⟩ := checkInjection_binary s u hu hbc (inv_width_cases w h rule inj P s hinv)
  refine ⟨s, u, hs, hbr, hbc, hu, hub, ?_⟩
  intro i hi
  obtain ⟨l, c, r, hl, hc, hr', hL, hM, hR⟩ := neighbourhood_bits u.cells hub i hi
  refine ⟨l, c, r, hl, hc, hr', hL, hM, hR,
    parseInt_bits l (by omega) c (by omega) r (by omega), by omega, by omega, ?_⟩
  rw [hf.1, hinv.rules_eq]
  exact ⟨_, (executeRules_parseRule_all rule (by omega) l (by omega) c (by omega) r
    (by omega)).1⟩

/-- Witness for C20: a run of rule 30 with two pairs, after two steps. -/
theorem cells_binary_witness :
    ∃ s u, generateTimes 2 (init (new 5 4) 30 [⟨2 / 255, 3 / 255⟩, ⟨1 / 255, 0⟩] 2) = some s ∧
      (∀ row ∈ s.wholeSystem, ∀ c ∈ row, c = some 0 ∨ c = some 1) ∧
      (∀ c ∈ s.cells, c = some 0 ∨ c = some 1) ∧
      checkInjection s = some u ∧
      (∀ c ∈ u.cells, c = some 0 ∨ c = some 1) ∧
      ∀ i, i < u.cells.length → ∃ l c r, l ≤ 1 ∧ c ≤ 1 ∧ r ≤ 1 ∧
        cellAt u.cells (modulo ((i : Int) - 1) u.cells.length) = some l ∧
        cellAt u.cells (some (i : Int)) = some c ∧
        cellAt u.cells (modulo ((i : Int) + 1) u.cells.length) = some r ∧
        parseInt (str (some l) ++ str (some c) ++ str (some r)) 2
          = some (4 * l + 2 * c + r) ∧
        (0 : Int) ≤ 7 - ((4 * l + 2 * c + r : Nat) : Int) ∧
        (7 : Int) - ((4 * l + 2 * c + r : Nat) : Int) ≤ 7 ∧
        ∃ ch, u.rules.get? (7 - (4 * l + 2 * c + r)) = some ch :=
  cells_binary 5 4 30 [⟨2 / 255, 3 / 255⟩, ⟨1 / 255, 0⟩] 2 (by decide) (by decide) 2

/-! ### Claims about the fold and the selection in `draw` -/

/-- C24: for a length `L ≥ 2` with centre `c = floor(L / 2)` and an index
`j < L`, the fold index of `displayMirrored` is a natural number `f` with
`f ≤ c`, hence `f < L` (a valid index into the history); it is `2c - j` when
`c ≤ j < 2c`, and `j` when `j < c`. -/
theorem foldIndex_bounds (L j : Nat) (hL : 2 ≤ L) (hj : j < L) :
    ∃ f : Nat, foldIndex (center L) j = some (f : Int) ∧ f ≤ center L ∧ f < L ∧
      (center L ≤ j → j < 2 * center L → f = 2 * center L - j) ∧
      (j < center L → f = j) := by
  have hc : 1 ≤ center L := by unfold center; omega
  have hcL : center L < L := by unfold center; omega
  by_cases hlt : j < center L
  · refine ⟨j, ?_, by omega, by omega, fun h _ => by omega, fun _ => rfl⟩
    simp [foldIndex, not_le.mpr hlt]
  · have hge : j ≥ center L := by omega
    have hmod : j % center L < center L := Nat.mod_lt _ (by omega)
    have hc0 : ((center L : Nat) : Int) ≠ 0 := by omega
    refine ⟨center L - j % center L, ?_, by omega, by omega, ?_, fun h => absurd h hlt⟩
    · simp only [foldIndex, hge, if_true, jsRem, hc0, if_false, ← Int.ofNat_tmod]
      congr 1
      omega
    · intro _ h2
      have : j % center L = j - center L := by
        rw [Nat.mod_eq_sub_mod hge, Nat.mod_eq_of_lt (by omega)]
      omega

/-- Witness for C24: length 5, row 3 folds to row 1. -/
theorem foldIndex_bounds_witness :
    ∃ f : Nat, foldIndex (center 5) 3 = some (f : Int) ∧ f ≤ center 5 ∧ f < 5 ∧
      (center 5 ≤ 3 → 3 < 2 * center 5 → f = 2 * center 5 - 3) ∧
      (3 < center 5 → f = 3) :=
  foldIndex_bounds 5 3 (by decide) (by decide)

/-- C23 at a block of three transactions with `x` values `2^-32`, `1/4`, `3/4`,
all in `[0, 1)`. The product `objs[0].x * (n - 1)` is `2^-31`, whose floor is
0, an index of `[0, n - 1]`. The program computes
`parseInt(2^-31, 10) = 4`, the first digit of `4.656612873077393e-10`; `objs[4]`
is `undefined`, the read of its `x` throws, and no rule is derived. -/
theorem draw_selection_throws :
    smallSelectionBlock.length = 3 ∧
    (∀ o ∈ smallSelectionBlock, 0 ≤ o.x ∧ o.x < 1) ∧
    mul64 (1 / 2 ^ 32) ((smallSelectionBlock.length : ℚ) - 1) = 1 / 2 ^ 31 ∧
    ⌊mul64 (1 / 2 ^ 32) ((smallSelectionBlock.length : ℚ) - 1)⌋ = 0 ∧
    selectionIndex smallSelectionBlock 0 = some 4 ∧
    objAt smallSelectionBlock 4 = none ∧
    selectX smallSelectionBlock 0 = none ∧
    drawRule smallSelectionBlock = none := by
  refine ⟨by decide!, by decide!, by decide!, by decide!, by decide!, by decide!, by decide!,
    by decide!⟩

/-! ### Bounds of the injection reads -/

theorem checkInjection_of_inv (w h rule : Nat) (inj : List Pair) (P : Nat)
    (s : CellularAutomata) (hs : Inv w h rule inj P s) :
    ∃ u, checkInjection s = some u ∧
      u.injectionCounter
        = s.injectionCounter + (List.range P).countP (fires inj h s.generation) ∧
      u.injectionCounter ≤ P := by
  have hbud := run_counter_budget w h rule inj P s hs
  have hsplit := countP_pendingAt inj h s.generation (List.range P)
  have hb := hs.budget
  have hchk := checkInjection_eq s (by rw [hs.points_eq, hs.injection_eq]; exact hs.points_le)
    (by rw [hs.points_eq, hs.injection_eq, hs.height_eq]; exact hbud)
  refine ⟨_, hchk, ?_, ?_⟩
  · show s.injectionCounter + _ = _
    rw [hs.points_eq, hs.injection_eq, hs.height_eq]
  · show s.injectionCounter + _ ≤ P
    rw [hs.points_eq, hs.injection_eq, hs.height_eq]
    omega

theorem fires_unique (inj : List Pair) (h g1 g2 i : Nat) (h1 : fires inj h g1 i = true)
    (h2 : fires inj h g2 i = true) : g1 = g2 := by
  have e1 := of_decide_eq_true h1
  have e2 := of_decide_eq_true h2
  rw [e1] at e2
  have := Option.some.inj (Option.some.inj e2)
  omega

theorem generateTimes_generation (w h rule : Nat) (inj : List Pair) (P : Nat)
    (hP : P ≤ inj.length) (m : Nat) (s : CellularAutomata)
    (hs : generateTimes m (init (new w h) rule inj P) = some s) :
    Inv w h rule inj P s ∧ s.generation = m + 1 := by
  obtain ⟨t, ht, hinv, hgen⟩ := generateTimes_inv w h rule inj P hP m
  rw [hs] at ht
  cases ht
  exact ⟨hinv, hgen⟩

/-- C21: with `injectionPoints` at most the number of pairs, in every run
(`init`, then any number `n` of `generate` steps) the next `checkInjection`
does not throw; the injection counter is at most `injectionPoints` before and
after it and grows by the number of indices that fire; every index
`i < injectionPoints` read by `getInjectionPoint` and every counter value used
by `injectSeed` in that step names an existing pair; and an index that fires at
this step fires at no other step of the run. -/
theorem injection_reads_in_bounds (w h rule : Nat) (inj : List Pair) (P : Nat)
    (hP : P ≤ inj.length) (n : Nat) :
    ∃ s u, generateTimes n (init (new w h) rule inj P) = some s ∧
      checkInjection s = some u ∧
      s.injectionCounter ≤ P ∧ u.injectionCounter ≤ P ∧
      u.injectionCounter
        = s.injectionCounter + (List.range P).countP (fires inj h s.generation) ∧
      (∀ i, i < P → ∃ p, s.injection.get? i = some p ∧
        getInjectionPoint s i = some (jsRem (parseIntNum (mul64 p.x 255)) s.height)) ∧
      (∀ j, s.injectionCounter ≤ j → j < u.injectionCounter →
        ∃ p, s.injection.get? j = some p) ∧
      (∀ i, i < P → fires inj h s.generation i = true →
        ∀ m s2, generateTimes m (init (new w h) rule inj P) = some s2 →
          fires inj h s2.generation i = true → m = n) := by
  obtain ⟨s, hs, hinv, hgen⟩ := generateTimes_inv w h rule inj P hP n
  obtain ⟨u, hu, hcount, hule⟩ := checkInjection_of_inv w h rule inj P s hinv
  have hget : ∀ j, j < P → ∃ p, s.injection.get? j = some p := by
    intro j hj
    rw [List.get?_eq_getElem?, hinv.injection_eq]
    exact ⟨_, List.getElem?_eq_getElem (by omega)⟩
  refine ⟨s, u, hs, hu, by omega, hule, hcount, ?_, ?_, ?_⟩
  · intro i hi
    obtain ⟨p, hp⟩ := hget i hi
    exact ⟨p, hp, by rw [getInjectionPoint_eq, hp]; rfl⟩
  · intro j _ hj
    exact hget j (by omega)
  · intro i _ hf m s2 hs2 hf2
    obtain ⟨_, hgen2⟩ := generateTimes_generation w h rule inj P hP m s2 hs2
    have := fires_unique inj h _ _ i hf hf2
    omega

/-- Witness for C21: a run of rule 30 with two pairs, after one step. -/
theorem injection_reads_in_bounds_witness :
    ∃ s u, generateTimes 1 (init (new 5 4) 30 [⟨2 / 255, 3 / 255⟩, ⟨1 / 255, 0⟩] 2) = some s ∧
      checkInjection s = some u ∧
      s.injectionCounter ≤ 2 ∧ u.injectionCounter ≤ 2 ∧
      u.injectionCounter
        = s.injectionCounter + (List.range 2).countP
          (fires [⟨2 / 255, 3 / 255⟩, ⟨1 / 255, 0⟩] 4 s.generation) ∧
      (∀ i, i < 2 → ∃ p, s.injection.get? i = some p ∧
        getInjectionPoint s i = some (jsRem (parseIntNum (mul64 p.x 255)) s.height)) ∧
      (∀ j, s.injectionCounter ≤ j → j < u.injectionCounter →
        ∃ p, s.injection.get? j = some p) ∧
      (∀ i, i < 2 → fires [⟨2 / 255, 3 / 255⟩, ⟨1 / 255, 0⟩] 4 s.generation i = true →
        ∀ m s2, generateTimes m (init (new 5 4) 30 [⟨2 / 255, 3 / 255⟩, ⟨1 / 255, 0⟩] 2)
            = some s2 →
          fires [⟨2 / 255, 3 / 255⟩, ⟨1 / 255, 0⟩] 4 s2.generation i = true → m = 1) :=
  injection_reads_in_bounds 5 4 30 [⟨2 / 255, 3 / 255⟩, ⟨1 / 255, 0⟩] 2 (by decide) 1

/-! ### Exact and double arithmetic in the attributes -/

theorem toDouble_threshold :
    toDouble (98 / 100) = 8827055269646172 / 9007199254740992 := by decide!

/-- On the outputs `k / 2^32` of the generator, the comparison with the exact
`98/100` in `activeRarity` decides as the comparison with the double `0.98`. -/
theorem activeRarity_generator (k : Nat) :
    activeRarity ((k : ℚ) / 2 ^ 32) = decide ((k : ℚ) / 2 ^ 32 ≥ toDouble (98 / 100)) := by
  unfold activeRarity
  rw [toDouble_threshold]
  by_cases hk : k ≤ 4209067950
  · have h1 : (k : ℚ) ≤ 4209067950 := by exact_mod_cast hk
    have h2 : ¬ ((k : ℚ) / 2 ^ 32 ≥ 98 / 100) := by
      rw [ge_iff_le, not_le, div_lt_iff₀ (by norm_num)]
      norm_num
      linarith
    have h3 : ¬ ((k : ℚ) / 2 ^ 32 ≥ 8827055269646172 / 9007199254740992) := by
      rw [ge_iff_le, not_le, div_lt_iff₀ (by norm_num)]
      norm_num
      linarith
    simp only [h2, h3, decide_False]
  · have h1 : (4209067951 : ℚ) ≤ (k : ℚ) := by
      have : 4209067951 ≤ k := by omega
      exact_mod_cast this
    have h2 : (k : ℚ) / 2 ^ 32 ≥ 98 / 100 := by
      rw [ge_iff_le, le_div_iff₀ (by norm_num)]
      norm_num
      linarith
    have h3 : (k : ℚ) / 2 ^ 32 ≥ 8827055269646172 / 9007199254740992 := by
      rw [ge_iff_le, le_div_iff₀ (by norm_num)]
      norm_num
      linarith
    simp only [h2, h3, decide_True]

/-- On the four lists of `findClass`, the percentage computed in doubles,
`Math.round` of the rounded product `(length / 255) * 100`, is the exact
`findPercentage`. -/
theorem findPercentage_doubles :
    ∀ v ∈ [c1, c2, c3, c4],
      ⌊mul64 (div64 (v.length : ℚ) 255) 100 + 1 / 2⌋ = findPercentage v := by
  decide!

/-! ### The two embeddings of the class on whole-number fields -/

theorem trunc_div_natCast (a : Int) (m : Nat) (hm : 0 < m) :
    (if 0 ≤ (a : ℚ) / (m : ℚ) then ⌊(a : ℚ) / (m : ℚ)⌋ else ⌈(a : ℚ) / (m : ℚ)⌉)
      = Int.tdiv a m := by
  have hmq : (0 : ℚ) < (m : ℚ) := by exact_mod_cast hm
  by_cases ha : 0 ≤ a
  · have hq : 0 ≤ (a : ℚ) / (m : ℚ) := div_nonneg (by exact_mod_cast ha) (le_of_lt hmq)
    rw [if_pos hq, Rat.floor_intCast_div_natCast, Int.tdiv_eq_ediv ha (by omega)]
  · have ha' : a < 0 := by omega
    have hq : ¬ 0 ≤ (a : ℚ) / (m : ℚ) := by
      rw [not_le]
      exact div_neg_of_neg_of_pos (by exact_mod_cast ha') hmq
    rw [if_neg hq]
    have h1 : ⌈(a : ℚ) / (m : ℚ)⌉ = -⌊((-a : Int) : ℚ) / (m : ℚ)⌋ := by
      have h0 : (a : ℚ) / (m : ℚ) = -(((-a : Int) : ℚ) / (m : ℚ)) := by
        push_cast
        ring
      rw [h0, Int.ceil_neg]
    rw [h1, Rat.floor_intCast_div_natCast]
    have h2 : Int.tdiv a m = -(Int.tdiv (-a) m) := by
      rw [Int.neg_tdiv, neg_neg]
    rw [h2, Int.tdiv_eq_ediv (by omega) (by omega)]

theorem numRem_intCast (a : Int) (m : Nat) :
    numRem (a : ℚ) (m : ℚ) = (jsRem a m).map (fun (k : Int) => (k : ℚ)) := by
  unfold numRem jsRem
  rcases Nat.eq_zero_or_pos m with h0 | hpos
  · subst h0
    simp
  · have hm0 : (m : ℚ) ≠ 0 := by
      have : (0 : ℚ) < (m : ℚ) := by exact_mod_cast hpos
      exact ne_of_gt this
    have hmI : ((m : Nat) : Int) ≠ 0 := by omega
    simp only [hm0, if_false, hmI, Option.map_some', Option.some.injEq]
    rw [trunc_div_natCast a m hpos]
    have := Int.tmod_add_tdiv a m
    have h3 : Int.tmod a m = a - (m : Int) * Int.tdiv a m := by omega
    rw [h3]
    push_cast
    ring

theorem assignAt_intCast (cells : List Cell) (idx : IntOrNaN) (v : Cell)
    (hidx : ∀ k, idx = some k → k < 2 ^ 32 - 1) :
    assignAt cells (idx.map (fun (k : Int) => (k : ℚ))) v = assignCell cells idx v := by
  cases idx with
  | none => rfl
  | some k =>
    have hk := hidx k rfl
    cases k with
    | ofNat n =>
      have h1 : (0 : ℚ) ≤ ((Int.ofNat n : Int) : ℚ) := by
        have : (0 : Int) ≤ Int.ofNat n := Int.ofNat_nonneg n
        exact_mod_cast this
      have h2 : (((Int.ofNat n : Int) : ℚ)) < 2 ^ 32 - 1 := by exact_mod_cast hk
      simp only [Option.map_some', assignAt, assignCell, h1, h2, Rat.intCast_den, Rat.intCast_num,
        and_self, if_true]
      rfl
    | negSucc n =>
      have h1 : ¬ (0 : ℚ) ≤ ((Int.negSucc n : Int) : ℚ) := by
        rw [not_le]
        exact_mod_cast Int.negSucc_lt_zero n
      simp only [Option.map_some', assignAt, assignCell, h1, false_and, if_false]

theorem jsRem_lt (a : Int) (w : Nat) (k : Int) (h : jsRem a w = some k) : k < w := by
  unfold jsRem at h
  split at h
  · cases h
  · next hw =>
    cases h
    exact Int.tmod_lt_of_pos a (by omega)

theorem sketch_getInjectionPoint_toSketch (s : CellularAutomata) (i : Nat) :
    Sketch.getInjectionPoint (toSketch s) i
      = (getInjectionPoint s i).map (Option.map (fun (k : Int) => (k : ℚ))) := by
  unfold Sketch.getInjectionPoint getInjectionPoint
  show (match s.injection.get? i with
    | none => none
    | some p => some (numRem (parseIntNum (mul64 p.x 255)) (s.height : ℚ))) = _
  cases s.injection.get? i with
  | none => rfl
  | some p => simp only [Option.map_some', numRem_intCast]

theorem sketch_injectSeed_toSketch (s : CellularAutomata) (hw : s.width ≤ 2 ^ 32 - 1) :
    Sketch.injectSeed (toSketch s) = (injectSeed s).map toSketch := by
  unfold Sketch.injectSeed injectSeed
  show (match s.injection.get? s.injectionCounter with
    | none => none
    | some p => some { toSketch s with
        cells := assignAt s.cells (numRem (parseIntNum (mul64 p.y 255)) (s.width : ℚ)) (some 1)
        injectionCounter := s.injectionCounter + 1 }) = _
  cases s.injection.get? s.injectionCounter with
  | none => rfl
  | some p =>
    have hidx : ∀ k, jsRem (parseIntNum (mul64 p.y 255)) s.width = some k → k < 2 ^ 32 - 1 := by
      intro k hk
      have := jsRem_lt _ _ _ hk
      omega
    simp only [Option.map_some', numRem_intCast, assignAt_intCast _ _ _ hidx]
    rfl

theorem sketch_checkInjectionAt_toSketch (s : CellularAutomata) (i : Nat)
    (hw : s.width ≤ 2 ^ 32 - 1) :
    Sketch.checkInjectionAt (toSketch s) i = (checkInjectionAt s i).map toSketch := by
  unfold Sketch.checkInjectionAt checkInjectionAt
  rw [sketch_getInjectionPoint_toSketch]
  cases getInjectionPoint s i with
  | none => rfl
  | some point =>
    have hiff : (Option.map (fun (k : Int) => (k : ℚ)) point
          = some (((toSketch s).generation : Nat) : ℚ))
        ↔ point = some (s.generation : Int) := by
      cases point with
      | none => simp
      | some k =>
        simp only [Option.map_some', Option.some.injEq]
        show (k : ℚ) = ((s.generation : Nat) : ℚ) ↔ _
        constructor
        · intro h; exact_mod_cast h
        · intro h; rw [h]; simp
    by_cases hf : point = some (s.generation : Int)
    · simp only [Option.map_some', if_pos hf, if_pos (hiff.mpr hf)]
      exact sketch_injectSeed_toSketch s hw
    · have hf2 := fun h => hf (hiff.mp h)
      simp only [Option.map_some', if_neg hf, if_neg hf2]

theorem sketch_foldlM_toSketch (is : List Nat) (s : CellularAutomata)
    (hw : s.width ≤ 2 ^ 32 - 1) :
    is.foldlM Sketch.checkInjectionAt (toSketch s)
      = (is.foldlM checkInjectionAt s).map toSketch := by
  induction is generalizing s with
  | nil => rfl
  | cons i is ih =>
    rw [List.foldlM_cons, List.foldlM_cons, sketch_checkInjectionAt_toSketch s i hw]
    cases hc : checkInjectionAt s i with
    | none => rfl
    | some t =>
      have htw : t.width = s.width := by
        rcases checkInjectionAt_shape s t i hc with h | h
        · rw [h]
        · exact (injectSeed_shape s t h).1.2.2.1
      simp only [Option.map_some', Option.some_bind, Option.bind_eq_bind]
      exact ih t (by rw [htw]; exact hw)

/-- On natural-number fields below the largest array length the two
embeddings of the class agree: the numeric `generate` of the image of a state
is the image of its `generate`. -/
theorem sketch_generate_toSketch (s : CellularAutomata) (hw : s.width ≤ 2 ^ 32 - 1) :
    Sketch.generate (toSketch s) = (generate s).map toSketch := by
  have hchk : Sketch.checkInjection (toSketch s) = (checkInjection s).map toSketch := by
    unfold Sketch.checkInjection checkInjection
    show (List.range ⌈((s.injectionPoints : Nat) : ℚ)⌉₊).foldlM _ _ = _
    rw [Nat.ceil_natCast]
    exact sketch_foldlM_toSketch _ s hw
  unfold Sketch.generate generate
  rw [hchk]
  cases checkInjection s with
  | none => rfl
  | some t => rfl

/-- The numeric `init` on whole-number dimensions is the image of `init`. -/
theorem sketch_init_toSketch (w h rule : Nat) (inj : List Pair) (P : Nat) :
    Sketch.init (Sketch.fresh w h) rule inj P = toSketch (init (new w h) rule inj P) := by
  simp only [Sketch.init, Sketch.start, Sketch.applyBlockInjection, Sketch.setRule, Sketch.fresh,
    init, start, applyBlockInjection, setRule, new, toSketch, Nat.ceil_natCast]

/-- The row `start` builds on an object with numeric fields is the row of the
loop `zeroLoop` run to its end. -/
theorem sketch_start_row (W H : ℚ) (rule : Nat) (inj : List Pair) (p : ℚ) (fuel : Nat)
    (hfuel : ⌈W⌉₊ ≤ fuel) :
    startRow W fuel = some (Sketch.init (Sketch.fresh W H) rule inj p).cells := by
  rw [startRow_eq _ fuel hfuel]
  simp only [Sketch.init, Sketch.start, Sketch.applyBlockInjection, Sketch.setRule, Sketch.fresh,
    foldl_arraySet_range, List.length_replicate]

/-! ### The injection count passed by `draw` -/

theorem objAt_mem (objs : List Pair) (idx : Int) (o : Pair) (h : objAt objs idx = some o) :
    o ∈ objs := by
  cases idx with
  | ofNat n => exact List.get?_mem h
  | negSucc n => cases h

theorem selectX_mem (objs : List Pair) (k : Nat) (v : ℚ) (h : selectX objs k = some v) :
    (∃ o ∈ objs, v = o.x) ∧ k < objs.length := by
  unfold selectX at h
  cases hi : selectionIndex objs k with
  | none => rw [hi] at h; cases h
  | some idx =>
    rw [hi] at h
    simp only [] at h
    have hk : k < objs.length := by
      unfold selectionIndex at hi
      cases hg : objs.get? k with
      | none => rw [hg] at hi; cases hi
      | some o =>
        rw [List.get?_eq_getElem?] at hg
        exact (List.getElem?_eq_some_iff.mp hg).1
    cases ho : objAt objs idx with
    | none => rw [ho] at h; cases h
    | some o =>
      rw [ho] at h
      simp only [Option.some.injEq] at h
      exact ⟨⟨o, objAt_mem objs idx o ho, h.symm⟩, hk⟩

theorem ceil_unit_cases (p : ℚ) (h0 : 0 ≤ p) (h1 : p < 1) :
    (p = 0 ∧ ⌈p⌉₊ = 0) ∨ (0 < p ∧ ⌈p⌉₊ = 1) := by
  rcases eq_or_lt_of_le h0 with h | h
  · left
    exact ⟨h.symm, by rw [← h]; simp⟩
  · right
    refine ⟨h, ?_⟩
    rw [Nat.ceil_eq_iff (by decide)]
    constructor
    · simpa using h
    · simpa using le_of_lt h1

theorem sketch_checkInjection_unit (s : Sketch.CellularAutomata) (h0 : 0 ≤ s.injectionPoints)
    (h1 : s.injectionPoints < 1) :
    Sketch.checkInjection s
      = if 0 < s.injectionPoints then Sketch.checkInjectionAt s 0 else some s := by
  unfold Sketch.checkInjection
  rcases ceil_unit_cases _ h0 h1 with ⟨hz, hc⟩ | ⟨hp, hc⟩
  · rw [hc, if_neg (by rw [hz]; exact lt_irrefl 0)]
    rfl
  · rw [hc, if_pos hp]
    show List.foldlM Sketch.checkInjectionAt s [0] = _
    rw [List.foldlM_cons]
    cases Sketch.checkInjectionAt s 0 <;> rfl

theorem sketch_checkInjectionLoop_eq (points : ℚ) (fuel i : Nat) (s : Sketch.CellularAutomata)
    (hfuel : ⌈points⌉₊ - i ≤ fuel) :
    Sketch.checkInjectionLoop points fuel i s
      = Sketch.runOfOption
          ((List.range' i (⌈points⌉₊ - i)).foldlM Sketch.checkInjectionAt s) := by
  induction fuel generalizing i s with
  | zero =>
    have hnot : ¬ ((i : ℚ) < points) := fun h => by
      have := Nat.lt_ceil.mpr h
      omega
    have h0 : ⌈points⌉₊ - i = 0 := by omega
    simp only [Sketch.checkInjectionLoop, hnot, if_false, h0, List.range'_zero,
      List.foldlM_nil]
    rfl
  | succ fuel ih =>
    by_cases hlt : (i : ℚ) < points
    · have hi : i < ⌈points⌉₊ := Nat.lt_ceil.mpr hlt
      have hstep : ⌈points⌉₊ - i = (⌈points⌉₊ - (i + 1)) + 1 := by omega
      simp only [Sketch.checkInjectionLoop, hlt, if_true]
      rw [hstep, List.range'_succ, List.foldlM_cons]
      cases hc : Sketch.checkInjectionAt s i with
      | none => rfl
      | some t => exact ih (i + 1) t (by omega)
    · have h0 : ⌈points⌉₊ - i = 0 := by
        have : ¬ (i < ⌈points⌉₊) := fun h => hlt (Nat.lt_ceil.mp h)
        omega
      simp only [Sketch.checkInjectionLoop, hlt, if_false, h0, List.range'_zero,
        List.foldlM_nil]
      rfl

theorem sketch_checkInjectionLoop_eq_checkInjection (fuel : Nat) (s : Sketch.CellularAutomata)
    (hfuel : ⌈s.injectionPoints⌉₊ ≤ fuel) :
    Sketch.checkInjectionLoop s.injectionPoints fuel 0 s
      = Sketch.runOfOption (Sketch.checkInjection s) := by
  rw [sketch_checkInjectionLoop_eq s.injectionPoints fuel 0 s (by omega), Sketch.checkInjection,
    List.range_eq_range']
  rfl

/-- What `checkInjection` does in a state of a run that `draw` starts. -/
theorem sketch_checkInjection_step (W H : ℚ) (objs : List Pair) (p : ℚ)
    (s : Sketch.CellularAutomata) (p0 : Pair) (h0 : 0 ≤ p) (h1 : p < 1)
    (hp0 : objs.get? 0 = some p0) (hs : SketchInv W H objs p s) :
    ∃ u, Sketch.checkInjection s = some u ∧ u.injectionCounter ≤ 1 ∧
      u.rules = s.rules ∧ u.generation = s.generation ∧ u.width = s.width ∧
      u.height = s.height ∧ u.injection = s.injection ∧
      u.injectionPoints = s.injectionPoints ∧ u.wholeSystem = s.wholeSystem ∧
      (u = s ∨
        (0 < p ∧ s.injectionCounter = 0 ∧ u.injectionCounter = 1 ∧
          numRem (parseIntNum (mul64 p0.x 255)) H = some (s.generation : ℚ) ∧
          u.cells = assignAt s.cells (numRem (parseIntNum (mul64 p0.y 255)) W) (some 1))) := by
  obtain ⟨hW, hH, hinj, hpts, hgen, hcnt⟩ := hs
  have hcle : s.injectionCounter ≤ 1 := by
    rcases hcnt with h | ⟨h, _⟩ <;> omega
  have hchk := sketch_checkInjection_unit s (by rw [hpts]; exact h0) (by rw [hpts]; exact h1)
  rw [hpts] at hchk
  rw [hchk]
  by_cases hpos : 0 < p
  · rw [if_pos hpos]
    have hget : Sketch.getInjectionPoint s 0
        = some (numRem (parseIntNum (mul64 p0.x 255)) H) := by
      simp only [Sketch.getInjectionPoint, hinj, hp0, hH]
    by_cases hf : numRem (parseIntNum (mul64 p0.x 255)) H = some (s.generation : ℚ)
    · have hc0 : s.injectionCounter = 0 := by
        rcases hcnt with h | ⟨_, q0, g, hq0, hg, hrem⟩
        · exact h
        · rw [hp0] at hq0
          cases hq0
          rw [hf] at hrem
          have := Option.some.inj hrem
          have : s.generation = g := by exact_mod_cast this
          omega
      refine ⟨{ s with
        cells := assignAt s.cells (numRem (parseIntNum (mul64 p0.y 255)) W) (some 1)
        injectionCounter := s.injectionCounter + 1 }, ?_, ?_, rfl, rfl, rfl, rfl, rfl, rfl, rfl,
        Or.inr ⟨hpos, hc0, ?_, hf, rfl⟩⟩
      · simp only [Sketch.checkInjectionAt, hget, hf, if_true, Sketch.injectSeed, hinj, hc0, hp0,
          hW]
      · show s.injectionCounter + 1 ≤ 1
        omega
      · show s.injectionCounter + 1 = 1
        omega
    · refine ⟨s, ?_, hcle, rfl, rfl, rfl, rfl, rfl, rfl, rfl, Or.inl rfl⟩
      simp only [Sketch.checkInjectionAt, hget, hf, if_false]
  · rw [if_neg hpos]
    exact ⟨s, rfl, hcle, rfl, rfl, rfl, rfl, rfl, rfl, rfl, Or.inl rfl⟩

/-- One `generate` step of a run that `draw` starts keeps the invariant. -/
theorem sketch_generate_step (W H : ℚ) (objs : List Pair) (p : ℚ)
    (s : Sketch.CellularAutomata) (p0 : Pair) (h0 : 0 ≤ p) (h1 : p < 1)
    (hp0 : objs.get? 0 = some p0) (hs : SketchInv W H objs p s) :
    ∃ u t, Sketch.checkInjection s = some u ∧ Sketch.generate s = some t ∧
      SketchInv W H objs p t ∧ t.generation = s.generation + 1 ∧
      t.injectionCounter = u.injectionCounter ∧ u.injectionCounter ≤ 1 ∧
      (u = s ∨
        (0 < p ∧ s.injectionCounter = 0 ∧ u.injectionCounter = 1 ∧
          numRem (parseIntNum (mul64 p0.x 255)) H = some (s.generation : ℚ) ∧
          u.cells = assignAt s.cells (numRem (parseIntNum (mul64 p0.y 255)) W) (some 1))) := by
  obtain ⟨u, hu, hule, _, hug, huw, huh, hui, hup, _, hcase⟩ :=
    sketch_checkInjection_step W H objs p s p0 h0 h1 hp0 hs
  have hs' := hs
  obtain ⟨hW, hH, hinj, hpts, hgen, hcnt⟩ := hs
  refine ⟨u, { u with
      cells := nextRow u.rules u.cells
      wholeSystem := arraySet u.wholeSystem u.generation (nextRow u.rules u.cells) []
      generation := u.generation + 1 }, hu, by simp only [Sketch.generate, hu], ?_,
    by show u.generation + 1 = _; rw [hug], rfl, hule, hcase⟩
  refine ⟨huw.trans hW, huh.trans hH, hui.trans hinj, hup.trans hpts, ?_, ?_⟩
  · show 1 ≤ u.generation + 1
    omega
  · show u.injectionCounter = 0 ∨ (u.injectionCounter = 1 ∧ ∃ q0 g, objs.get? 0 = some q0 ∧
      g < u.generation + 1 ∧ numRem (parseIntNum (mul64 q0.x 255)) H = some ((g : Nat) : ℚ))
    rcases hcase with heq | ⟨_, _, hu1, hrem, _⟩
    · rw [heq]
      rcases hcnt with h | ⟨h, q0, g, hq0, hg, hrem⟩
      · exact Or.inl h
      · exact Or.inr ⟨h, q0, g, hq0, by omega, hrem⟩
    · exact Or.inr ⟨hu1, p0, s.generation, hp0, by omega, hrem⟩

theorem sketch_init_inv (W H : ℚ) (rule : Nat) (objs : List Pair) (p : ℚ) :
    SketchInv W H objs p (Sketch.init (Sketch.fresh W H) rule objs p) ∧
      (Sketch.init (Sketch.fresh W H) rule objs p).generation = 1 :=
  ⟨⟨rfl, rfl, rfl, rfl, by show 1 ≤ 0 + 1; omega, Or.inl rfl⟩, rfl⟩

theorem sketch_generateTimes_succ (n : Nat) (s : Sketch.CellularAutomata) :
    Sketch.generateTimes (n + 1) s = (Sketch.generateTimes n s).bind Sketch.generate := by
  induction n generalizing s with
  | zero =>
    cases hg : Sketch.generate s <;> simp [Sketch.generateTimes, hg]
  | succ n ih =>
    rw [Sketch.generateTimes]
    cases hg : Sketch.generate s with
    | none => simp [Sketch.generateTimes, hg]
    | some t =>
      simp only []
      rw [ih t]
      simp [Sketch.generateTimes, hg]

theorem sketch_generateTimes_inv (W H : ℚ) (rule : Nat) (objs : List Pair) (p : ℚ) (p0 : Pair)
    (h0 : 0 ≤ p) (h1 : p < 1) (hp0 : objs.get? 0 = some p0) (n : Nat) :
    ∃ s, Sketch.generateTimes n (Sketch.init (Sketch.fresh W H) rule objs p) = some s ∧
      SketchInv W H objs p s ∧ s.generation = n + 1 := by
  induction n with
  | zero =>
    exact ⟨_, rfl, (sketch_init_inv W H rule objs p).1, rfl⟩
  | succ n ih =>
    obtain ⟨s, hs, hinv, hgen⟩ := ih
    obtain ⟨u, t, _, ht, htinv, htgen, _⟩ := sketch_generate_step W H objs p s p0 h0 h1 hp0 hinv
    refine ⟨t, ?_, htinv, by omega⟩
    rw [sketch_generateTimes_succ, hs]
    exact ht

theorem sketch_generateAll_inv (W H : ℚ) (objs : List Pair) (p : ℚ) (p0 : Pair)
    (h0 : 0 ≤ p) (h1 : p < 1) (hp0 : objs.get? 0 = some p0) (fuel : Nat)
    (s : Sketch.CellularAutomata) (hs : SketchInv W H objs p s)
    (hfuel : ⌈H⌉₊ - s.generation ≤ fuel) :
    ∃ t, Sketch.generateAll fuel s = Sketch.Run.done t ∧ SketchInv W H objs p t ∧
      Sketch.isComplete t = true := by
  induction fuel generalizing s with
  | zero =>
    have hc : Sketch.isComplete s = true := by
      simp only [Sketch.isComplete, hs.2.1, decide_eq_true_eq, ge_iff_le]
      rw [← Nat.ceil_le]
      omega
    exact ⟨s, by simp [Sketch.generateAll, hc], hs, hc⟩
  | succ fuel ih =>
    by_cases hc : Sketch.isComplete s = true
    · exact ⟨s, by simp [Sketch.generateAll, hc], hs, hc⟩
    · obtain ⟨u, t, _, ht, htinv, htgen, _⟩ := sketch_generate_step W H objs p s p0 h0 h1 hp0 hs
      obtain ⟨v, hv, hvinv, hvc⟩ := ih t htinv (by omega)
      refine ⟨v, ?_, hvinv, hvc⟩
      simp only [Sketch.generateAll, hc, ht]
      simpa using hv

theorem sketch_new_eq (width height scale : ℚ) (s0 : Sketch.CellularAutomata)
    (h : Sketch.new width height scale = some s0) :
    constructorWidth width height scale = some s0.width ∧
      constructorHeight height scale = some s0.height ∧
      s0 = Sketch.fresh s0.width s0.height := by
  unfold Sketch.new at h
  cases hw : constructorWidth width height scale with
  | none => rw [hw] at h; cases h
  | some w =>
    cases hh : constructorHeight height scale with
    | none => rw [hw, hh] at h; cases h
    | some ht =>
      rw [hw, hh] at h
      simp only [Option.some.injEq] at h
      subst h
      exact ⟨rfl, rfl, rfl⟩

/-- C22: when `draw` reaches `init` (the selection through `objs[1]` names an
entry) on a block whose `x` values lie in `[0, 1)`, the `injectionPoints` it
passes is the `x` of one entry, a number `p` of `[0, 1)`, and the object has
the unrounded dimensions the constructor stored. The loop
`i < injectionPoints` of `checkInjection` then does nothing (`p = 0`) or
examines index 0 only. In the run, each `generate` step leaves the injection
counter as `checkInjection` left it, the counter never exceeds 1, and a step
that injects does so with the counter at 0, at the generation that is the
trigger of pair 0, and writes at the column of pair 0. `generateAll` ends
within `ceil(height) - 1` steps with the counter at most 1: at most one
injection in the whole run. -/
theorem draw_injects_at_most_once (objs : List Pair) (canvasWidth canvasHeight scale : ℚ)
    (rule : Nat) (p : ℚ) (s0 : Sketch.CellularAutomata)
    (hx : ∀ o ∈ objs, 0 ≤ o.x ∧ o.x < 1)
    (hp : drawInjectionPoints objs = some p)
    (hnew : Sketch.new canvasWidth canvasHeight scale = some s0) :
    (∃ o ∈ objs, p = o.x) ∧ 0 ≤ p ∧ p < 1 ∧ ⌈p⌉₊ ≤ 1 ∧
    constructorWidth canvasWidth canvasHeight scale = some s0.width ∧
    constructorHeight canvasHeight scale = some s0.height ∧
    (∀ (s : Sketch.CellularAutomata) (fuel : Nat), s.injectionPoints = p → 1 ≤ fuel →
      Sketch.checkInjectionLoop p fuel 0 s = Sketch.runOfOption (Sketch.checkInjection s) ∧
      Sketch.checkInjection s = if 0 < p then Sketch.checkInjectionAt s 0 else some s) ∧
    (∀ n, ∃ s u t, Sketch.generateTimes n (Sketch.init s0 rule objs p) = some s ∧
      s.generation = n + 1 ∧
      Sketch.checkInjection s = some u ∧ Sketch.generate s = some t ∧
      t.injectionCounter = u.injectionCounter ∧
      s.injectionCounter ≤ 1 ∧ u.injectionCounter ≤ 1 ∧
      (u = s ∨
        (s.injectionCounter = 0 ∧ u.injectionCounter = 1 ∧
          ∃ p0, objs.get? 0 = some p0 ∧
            numRem (parseIntNum (mul64 p0.x 255)) s0.height = some (s.generation : ℚ) ∧
            u.cells
              = assignAt s.cells (numRem (parseIntNum (mul64 p0.y 255)) s0.width) (some 1)))) ∧
    (∀ fuel, ⌈s0.height⌉₊ ≤ fuel + 1 →
      ∃ t, Sketch.generateAll fuel (Sketch.init s0 rule objs p) = Sketch.Run.done t ∧
        Sketch.isComplete t = true ∧ t.injectionCounter ≤ 1) := by
  obtain ⟨⟨o, ho, hpo⟩, hlen⟩ := selectX_mem objs 1 p hp
  have h0 : 0 ≤ p := by rw [hpo]; exact (hx o ho).1
  have h1 : p < 1 := by rw [hpo]; exact (hx o ho).2
  have hceil : ⌈p⌉₊ ≤ 1 := by
    rcases ceil_unit_cases p h0 h1 with ⟨_, h⟩ | ⟨_, h⟩ <;> omega
  obtain ⟨p0, hp0⟩ : ∃ p0, objs.get? 0 = some p0 := by
    rw [List.get?_eq_getElem?]
    exact ⟨_, List.getElem?_eq_getElem (by omega)⟩
  obtain ⟨hcw, hch, hfresh⟩ := sketch_new_eq _ _ _ s0 hnew
  refine ⟨⟨o, ho, hpo⟩, h0, h1, hceil, hcw, hch, ?_, ?_, ?_⟩
  · intro s fuel hs hfuel
    constructor
    · rw [← hs]
      exact sketch_checkInjectionLoop_eq_checkInjection fuel s (by rw [hs]; omega)
    · have := sketch_checkInjection_unit s (by rw [hs]; exact h0) (by rw [hs]; exact h1)
      rw [hs] at this
      exact this
  · intro n
    rw [hfresh]
    obtain ⟨s, hs, hinv, hgen⟩ :=
      sketch_generateTimes_inv s0.width s0.height rule objs p p0 h0 h1 hp0 n
    obtain ⟨u, t, hu, ht, _, _, htu, hule, hcase⟩ :=
      sketch_generate_step s0.width s0.height objs p s p0 h0 h1 hp0 hinv
    have hsle : s.injectionCounter ≤ 1 := by
      rcases hinv.2.2.2.2.2 with h | ⟨h, _⟩ <;> omega
    refine ⟨s, u, t, hs, hgen, hu, ht, htu, hsle, hule, ?_⟩
    rcases hcase with h | ⟨_, ha, hb, hc, hd⟩
    · exact Or.inl h
    · exact Or.inr ⟨ha, hb, p0, hp0, hc, hd⟩
  · intro fuel hfuel
    rw [hfresh]
    obtain ⟨hinv, hgen⟩ := sketch_init_inv s0.width s0.height rule objs p
    obtain ⟨t, ht, htinv, htc⟩ := sketch_generateAll_inv s0.width s0.height objs p p0 h0 h1 hp0
      fuel _ hinv (by rw [hgen]; omega)
    refine ⟨t, ht, htc, ?_⟩
    rcases htinv.2.2.2.2.2 with h | ⟨h, _⟩ <;> omega

/-- Witness for C22: three transactions on the canvas of 500 by 500 with scale
2, whose rows are 187.5 wide and high; the selected `injectionPoints` is
1/128, and pair 0 triggers at generation 1. -/
theorem draw_injects_at_most_once_witness :
    drawInjectionPoints [⟨1 / 128, 3 / 256⟩, ⟨1 / 4, 0⟩, ⟨3 / 4, 0⟩] = some (1 / 128) ∧
    Sketch.new 500 500 2 = some (Sketch.fresh (375 / 2) (375 / 2)) ∧
    (∀ n, ∃ s u t, Sketch.generateTimes n
        (Sketch.init (Sketch.fresh (375 / 2) (375 / 2)) 30
          [⟨1 / 128, 3 / 256⟩, ⟨1 / 4, 0⟩, ⟨3 / 4, 0⟩] (1 / 128)) = some s ∧
      s.generation = n + 1 ∧
      Sketch.checkInjection s = some u ∧ Sketch.generate s = some t ∧
      t.injectionCounter = u.injectionCounter ∧
      s.injectionCounter ≤ 1 ∧ u.injectionCounter ≤ 1 ∧
      (u = s ∨
        (s.injectionCounter = 0 ∧ u.injectionCounter = 1 ∧
          ∃ p0, [(⟨1 / 128, 3 / 256⟩ : Pair), ⟨1 / 4, 0⟩, ⟨3 / 4, 0⟩].get? 0 = some p0 ∧
            numRem (parseIntNum (mul64 p0.x 255)) (375 / 2) = some (s.generation : ℚ) ∧
            u.cells
              = assignAt s.cells (numRem (parseIntNum (mul64 p0.y 255)) (375 / 2)) (some 1)))) ∧
    (∀ fuel, ⌈(375 / 2 : ℚ)⌉₊ ≤ fuel + 1 →
      ∃ t, Sketch.generateAll fuel
          (Sketch.init (Sketch.fresh (375 / 2) (375 / 2)) 30
            [⟨1 / 128, 3 / 256⟩, ⟨1 / 4, 0⟩, ⟨3 / 4, 0⟩] (1 / 128)) = Sketch.Run.done t ∧
        Sketch.isComplete t = true ∧ t.injectionCounter ≤ 1) :=
  ⟨by decide!, by decide!,
    (draw_injects_at_most_once [⟨1 / 128, 3 / 256⟩, ⟨1 / 4, 0⟩, ⟨3 / 4, 0⟩] 500 500 2 30
      (1 / 128) (Sketch.fresh (375 / 2) (375 / 2)) (by decide!) (by decide!)
      (by decide!)).2.2.2.2.2.2.2⟩

end ElementaryCA
